import Mathlib

/-!
Shallow embedding of the retrieval engine in src/search.py (hybrid BM25 +
vector search over chunked documents), together with theorems settling the
spec claims.  Python strings are modelled as lists of characters, float
arithmetic as exact rationals, the BM25 library and the sentence embedder
as external oracles carried in the state, Python dicts as insertion-ordered
association lists, and numpy argsort / faiss inner-product search as
sorting by score (descending, ties by ascending index).
-/

set_option maxHeartbeats 1000000
set_option maxRecDepth 100000

namespace PdfSearch

/-- A Python string, modelled as its list of characters. -/
abbrev Str := List Char

/-- Python str.split() whitespace (ASCII subset: space, tab, LF, VT, FF, CR). -/
def isSpace (c : Char) : Bool :=
  c.toNat = 32 ∨ c.toNat = 9 ∨ c.toNat = 10 ∨ c.toNat = 11 ∨ c.toNat = 12 ∨ c.toNat = 13

/-- Model of Python str.lower() on one character (ASCII case mapping). -/
def lowerChar (c : Char) : Char :=
  if 65 ≤ c.toNat ∧ c.toNat ≤ 90 then Char.ofNat (c.toNat + 32) else c

/-- Model of Python str.lower(). -/
def lowerStr (s : Str) : Str := s.map lowerChar

/-- Helper for pySplit: accumulates the current word (reversed) while
scanning. -/
def pySplitAux : List Char → List Char → List Str
  | [], acc => if acc = [] then [] else [acc.reverse]
  | c :: rest, acc =>
    if isSpace c then
      if acc = [] then pySplitAux rest [] else acc.reverse :: pySplitAux rest []
    else pySplitAux rest (c :: acc)

/-- Model of Python str.split() with no argument: split on runs of
whitespace, dropping empty pieces. -/
def pySplit (s : Str) : List Str := pySplitAux s []

/-- Python " ".join(words). -/
def joinSpace (ws : List Str) : Str := List.intercalate [' '] ws

/-- The while-loop of chunk_text, with explicit fuel (the loop advances the
start index by step = size - overlap each iteration; with step ≥ 1 a fuel of
words.length suffices and the fuel never runs out). -/
def chunkLoop : Nat → List Str → Nat → Nat → List (List Str)
  | 0, _, _, _ => []
  | fuel + 1, words, size, step =>
    if words = [] then []
    else words.take size :: chunkLoop fuel (words.drop step) size step

/-- src/search.py chunk_text: split text on whitespace, emit sliding windows
of size words advancing by size - overlap, join each window with spaces.
Python defaults are size = 200, overlap = 50; callers in this file pass them
explicitly. -/
def chunk_text (text : Str) (size : Nat) (overlap : Nat) : List Str :=
  let words := pySplit text
  (chunkLoop words.length words size (size - overlap)).map joinSpace

/-- Chunk-count formula claimed by the spec for size = 200, overlap = 50:
ceil(max(0, N - 200) / 150) + 1 when N > 0, and 0 when N = 0.  This is the
spec-side formula, written from the spec's words, to be compared against
chunk_text. -/
def claimedChunkCount (N : Nat) : Nat :=
  if N = 0 then 0 else (Int.toNat (max 0 ((N : ℤ) - 200)) + 149) / 150 + 1

/-- A concrete text of 151 whitespace-separated words. -/
def exText151 : Str := joinSpace (List.replicate 151 ['a'])

theorem chunkLoop_length (size step : Nat) (hstep : 1 ≤ step) :
    ∀ fuel ws, List.length ws ≤ fuel →
      (chunkLoop fuel ws size step).length = (ws.length + step - 1) / step := by
  intro fuel
  induction fuel with
  | zero =>
    intro ws hws
    have : ws = [] := List.eq_nil_of_length_eq_zero (Nat.le_zero.mp hws)
    subst this
    have h2 : (step - 1) / step = 0 := Nat.div_eq_of_lt (by omega)
    simp [chunkLoop]
    omega
  | succ n ih =>
    intro ws hws
    by_cases hne : ws = []
    · subst hne
      have h2 : (step - 1) / step = 0 := Nat.div_eq_of_lt (by omega)
      simp [chunkLoop]
      omega
    · have hlen : 1 ≤ ws.length := List.length_pos.mpr hne
      have hdrop : (ws.drop step).length = ws.length - step := by simp
      have hrec : (ws.drop step).length ≤ n := by
        rw [hdrop]
        omega
      have hih := ih (ws.drop step) hrec
      rw [chunkLoop, if_neg hne, List.length_cons, hih, hdrop]
      rcases le_or_lt ws.length step with hle | hle
      · have h1 : ws.length - step + step - 1 = step - 1 := by omega
        have h2 : (step - 1) / step = 0 := Nat.div_eq_of_lt (by omega)
        have h3 : ws.length + step - 1 = (ws.length - 1) + step := by omega
        have h4 : ((ws.length - 1) + step) / step = (ws.length - 1) / step + 1 :=
          Nat.add_div_right _ (by omega)
        have h5 : (ws.length - 1) / step = 0 := Nat.div_eq_of_lt (by omega)
        rw [h1, h2, h3, h4, h5]
      · have h1 : ws.length - step + step - 1 = (ws.length - step - 1) + step := by omega
        have h2 : ws.length + step - 1 = ((ws.length - step - 1) + step) + step := by omega
        have h5 : ∀ x : Nat, (x + step) / step = x / step + 1 := fun x =>
          Nat.add_div_right _ (by omega)
        rw [h1, h2, h5, h5, h5]

theorem chunk_text_length (text : Str) :
    (chunk_text text 200 50).length = ((pySplit text).length + 149) / 150 := by
  unfold chunk_text
  rw [List.length_map]
  exact chunkLoop_length 200 150 (by omega) _ _ le_rfl

theorem chunk_text_nil_iff (text : Str) :
    chunk_text text 200 50 = [] ↔ pySplit text = [] := by
  unfold chunk_text
  constructor
  · intro h
    by_contra hne
    have hlen : 1 ≤ (pySplit text).length := by
      cases hsp : pySplit text with
      | nil => exact absurd hsp hne
      | cons a l => simp
    have := congrArg List.length h
    rw [List.length_map, chunkLoop_length 200 150 (by omega) _ _ le_rfl] at this
    simp at this
    omega
  · intro h
    rw [h]
    rfl

/-- C2: the spec's chunk-count formula ceil(max(0, N-200)/150) + 1 is false
on the code: a text of 151 whitespace-separated words yields 2 chunks from
chunk_text with size 200 and overlap 50, while the formula predicts 1 (the
loop keeps emitting windows until the start index reaches the word count, so
the count is ceil(N/150), not ceil(max(0, N-200)/150) + 1). -/
theorem claim_C2_counterexample :
    (pySplit exText151).length = 151 ∧
      (chunk_text exText151 200 50).length = 2 ∧ claimedChunkCount 151 = 1 := by
  refine ⟨by decide, by decide, by decide⟩

/-- C2 (amended): for every text, with size = 200 and overlap = 50,
chunk_text returns exactly ceil(N / 150) chunks when the text has N > 0
whitespace-separated words, and 0 chunks when N = 0. -/
theorem claim_C2_amended_chunk_count (text : Str) :
    (chunk_text text 200 50).length =
      if (pySplit text).length = 0 then 0 else ((pySplit text).length + 149) / 150 := by
  rw [chunk_text_length]
  by_cases h : (pySplit text).length = 0
  · rw [if_pos h, h]
  · rw [if_neg h]

/-! ## Python dicts as insertion-ordered association lists -/

/-- Python dict lookup d[k] (None when absent). -/
def alget {κ ν : Type} [DecidableEq κ] : List (κ × ν) → κ → Option ν
  | [], _ => none
  | p :: d, k => if p.1 = k then some p.2 else alget d k

/-- Python dict.get(k, v0). -/
def algetD {κ ν : Type} [DecidableEq κ] (d : List (κ × ν)) (k : κ) (v0 : ν) : ν :=
  (alget d k).getD v0

/-- Python dict assignment d[k] = v: replaces in place when the key is
present (keeping its position), appends otherwise (dicts preserve insertion
order). -/
def alset {κ ν : Type} [DecidableEq κ] (d : List (κ × ν)) (k : κ) (v : ν) : List (κ × ν) :=
  if (alget d k).isSome then d.map (fun p => if p.1 = k then (k, v) else p)
  else d ++ [(k, v)]

/-- Python set.add on a set modelled as an insertion-ordered duplicate-free
list. -/
def setAdd (s : List Nat) (x : Nat) : List Nat := if x ∈ s then s else s ++ [x]

/-! ## Data model of src/search.py -/

/-- A stored document (the dict appended by Index.add_document). -/
structure Doc where
  id : Str
  name : Str
  text : Str
  chunks : List Str
deriving DecidableEq

/-- A search hit as returned by Index.search. -/
structure SearchResult where
  filename : Str
  score : ℚ
  snippet : Str
deriving DecidableEq

/-- Inner product of two vectors (numpy dot of rows). -/
def dot (u v : List ℚ) : ℚ := (List.zipWith (· * ·) u v).sum

/-- faiss.IndexFlatIP: stores raw vectors, searches by exact inner
product. -/
structure FaissIP where
  vecs : List (List ℚ)
deriving DecidableEq

def FaissIP.ntotal (f : FaissIP) : Nat := f.vecs.length

/-- The comparison relation of argsortDesc: descending score, ties broken by
ascending index. -/
def argRel (s : List ℚ) (i j : Nat) : Prop :=
  s.getD j 0 < s.getD i 0 ∨ (s.getD i 0 = s.getD j 0 ∧ i ≤ j)

instance (s : List ℚ) : DecidableRel (argRel s) := fun i j => by
  unfold argRel
  infer_instance

/-- Indices 0..n-1 sorted by descending score, ties by ascending index.
Models numpy argsort followed by reversal (numpy's default quicksort leaves
tie order unspecified; this model fixes one order). -/
def argsortDesc (s : List ℚ) : List Nat :=
  List.insertionSort (argRel s) (List.range s.length)

/-- faiss IndexFlatIP.search for one query: the k vectors with largest inner
product, sorted descending, returned as (similarity, row index) pairs. -/
def FaissIP.searchIP (f : FaissIP) (q : List ℚ) (k : Nat) : List (ℚ × Nat) :=
  let sims := f.vecs.map (fun v => dot v q)
  ((argsortDesc sims).take k).map (fun i => (sims.getD i 0, i))

/-- Python round-half-to-even of a rational to an integer. -/
def roundHalfEven (x : ℚ) : ℤ :=
  let f := ⌊x⌋
  let r := x - f
  if r < 1 / 2 then f else if 1 / 2 < r then f + 1 else if 2 ∣ f then f else f + 1

/-- Python round(x, 4), idealised over the rationals. -/
def round4 (x : ℚ) : ℚ := (roundHalfEven (x * 10000) : ℚ) / 10000

/-- The state of search.Index.  The BM25 library and the sentence embedder
are external collaborators: bmScores is the oracle modelling
BM25Okapi(corpus).get_scores(query_tokens), embedder the oracle modelling
SentenceTransformer.encode on one text (the encode of a batch is its map).
The bm25 field stores the tokenized corpus handed to BM25Okapi at rebuild
time (None when absent, as in the source). -/
structure Index where
  docs : List Doc
  chunks : List Str
  doc_map : List (Nat × Nat × Nat)
  bm25 : Option (List (List Str))
  bmScores : List (List Str) → List Str → List ℚ
  embedder : Str → List ℚ
  index : Option FaissIP
  valid_chunk_indices : List Nat
  bert_embeddings : Option (List (List ℚ))

/-! ## Operations of src/search.py -/

/-- Index.add_document (src/search.py lines 36-46), returning the Python
return value together with the updated state. -/
def Index.add_document (st : Index) (doc_id name text : Str) : Bool × Index :=
  if pySplit text = [] then (false, st)
  else
    let chunks := chunk_text text 200 50
    if chunks = [] then (false, st)
    else
      (true,
        { st with
          chunks := st.chunks ++ chunks
          docs := st.docs ++ [⟨doc_id, name, text, chunks⟩]
          doc_map := st.doc_map ++
            [(st.docs.length, st.chunks.length, st.chunks.length + chunks.length)] })

/-- The (chunk position, lower-cased tokens) pairs the rebuild loop of
lines 63-70 collects: one pair per valid chunk, in order. -/
def rebuildPairs (chunks : List Str) : List (Nat × List Str) :=
  chunks.enum.filterMap (fun ic =>
    if pySplit ic.2 ≠ [] then
      let tokens := pySplit (lowerStr ic.2)
      if tokens ≠ [] then some (ic.1, tokens) else none
    else none)

/-- Index._rebuild (src/search.py lines 57-109), success path of the
embedding stage (the except branch, which nulls the vector index, is not
taken when the embedder is a total function).  The source assigns the fields
one after the other; here each complete path sets its final field values in
one record update. -/
def Index.rebuild (st : Index) : Index :=
  if st.chunks = [] then { st with bm25 := none, index := none }
  else
    let pairs := rebuildPairs st.chunks
    let tokenized := pairs.map Prod.snd
    let valid := pairs.map Prod.fst
    let newBm25 := if tokenized ≠ [] then some tokenized else none
    let newValid := if tokenized ≠ [] then valid else []
    if valid ≠ [] then
      let emb := (valid.map (fun i => st.chunks.getD i [])).map st.embedder
      if 0 < (emb.map List.length).sum then
        { st with
          bm25 := newBm25
          valid_chunk_indices := newValid
          index := some ⟨emb⟩
          bert_embeddings := some emb }
      else
        { st with
          bm25 := newBm25
          valid_chunk_indices := newValid
          index := none
          bert_embeddings := none }
    else
      { st with
        bm25 := newBm25
        valid_chunk_indices := newValid
        index := none
        bert_embeddings := none }

/-- Index.add_documents_batch (src/search.py lines 48-55). -/
def Index.add_documents_batch (st : Index) (ds : List (Str × Str × Str)) : Nat × Index :=
  let r := ds.foldl (fun acc d =>
    let r1 := acc.2.add_document d.1 d.2.1 d.2.2
    (if r1.1 then acc.1 + 1 else acc.1, r1.2)) (0, st)
  if 0 < r.1 then (r.1, r.2.rebuild) else r

/-! ### The stages of Index.search (src/search.py lines 111-218) -/

/-- Line 122: query.lower().split(). -/
def qTokens (query : Str) : List Str := pySplit (lowerStr query)

/-- Line 127: np.argsort(bm25_scores)[::-1][:min(100, len(bm25_scores))]. -/
def bm25Top (scores : List ℚ) : List Nat :=
  (argsortDesc scores).take (min 100 scores.length)

/-- Line 130: search_k. -/
def searchK (f : FaissIP) (top_k : Nat) : Nat :=
  if 0 < f.ntotal then min (top_k * 5) f.ntotal else 0

/-- Lines 131-140: the (global chunk position, similarity) pairs collected
from the faiss search results. -/
def bertPairs (st : Index) (f : FaissIP) (q_emb : List ℚ) (top_k : Nat) : List (Nat × ℚ) :=
  let k := searchK f top_k
  if 0 < k then
    (f.searchIP q_emb k).filterMap (fun di =>
      if di.2 < st.valid_chunk_indices.length then
        some (st.valid_chunk_indices.getD di.2 0, di.1)
      else none)
  else []

/-- Line 139: bert_candidates in order. -/
def bertCandidates (st : Index) (f : FaissIP) (q_emb : List ℚ) (top_k : Nat) : List Nat :=
  (bertPairs st f q_emb top_k).map Prod.fst

/-- Line 140: the bert_similarities dict before refinement. -/
def bertSims0 (st : Index) (f : FaissIP) (q_emb : List ℚ) (top_k : Nat) : List (Nat × ℚ) :=
  (bertPairs st f q_emb top_k).foldl (fun d p => alset d p.1 p.2) []

/-- Lines 142-147: candidate_chunks (a Python set, modelled as an
insertion-ordered duplicate-free list). -/
def candidateChunks (st : Index) (top : List Nat) (bcands : List Nat) : List Nat :=
  let s1 := (top.take 50).foldl (fun s bi =>
    if bi < st.valid_chunk_indices.length then
      setAdd s (st.valid_chunk_indices.getD bi 0)
    else s) []
  (bcands.take 50).foldl setAdd s1

/-- The dict comprehension of line 151: position of a chunk index in
valid_chunk_indices, last occurrence winning as in a Python dict
comprehension. -/
def lastIdxOf (l : List Nat) (x : Nat) : Option Nat :=
  ((l.enum.filter (fun p => decide (p.2 = x))).getLast?).map Prod.fst

/-- Lines 149-167: re-derive exact similarities for every candidate chunk by
direct dot product, keeping the larger of retrieved and refined values. -/
def refineSims (st : Index) (q_emb : List ℚ) (cands : List Nat)
    (sims0 : List (Nat × ℚ)) : List (Nat × ℚ) :=
  match st.bert_embeddings with
  | none => sims0
  | some be =>
    let pairs := cands.filterMap (fun ci =>
      match lastIdxOf st.valid_chunk_indices ci with
      | some ei => if ei < be.length then some (ci, be.getD ei []) else none
      | none => none)
    pairs.foldl (fun d p =>
      let sim := dot p.2 q_emb
      match alget d p.1 with
      | none => alset d p.1 sim
      | some old => if old < sim then alset d p.1 sim else d) sims0

/-- Python max() over a list of scores (callers guarantee nonemptiness; the
default is irrelevant junk for the empty list, where Python raises). -/
def pyMax (l : List ℚ) : ℚ := l.foldl max (l.headD 0)

/-- Lines 169-178: the fused score dict. -/
def fusedScores (valid : List Nat) (scores : List ℚ) (top : List Nat)
    (sims : List (Nat × ℚ)) : List (Nat × ℚ) :=
  let f1 := top.enum.foldl (fun f rp =>
    if rp.2 < valid.length then
      let ci := valid.getD rp.2 0
      let normalized : ℚ :=
        if 0 < pyMax scores then scores.getD rp.2 0 / (pyMax scores + 1e-8) else 0
      alset f ci (algetD f ci 0 + 0.4 * normalized + 0.1 / ((rp.1 : ℚ) + 1))
    else f) []
  sims.foldl (fun f p => alset f p.1 (algetD f p.1 0 + 0.6 * max 0 p.2)) f1

/-- Line 183: sorted(fused.items(), key=lambda x: -x[1]) (Python's sort is
stable; so is insertion sort). -/
def rankByScoreDesc (l : List (Nat × ℚ)) : List (Nat × ℚ) :=
  List.insertionSort (fun a b => b.2 ≤ a.2) l

/-- Lines 190-194: resolve the owning document of a global chunk position by
forward scan of doc_map.  The source indexes self.docs directly (an
out-of-range document index would raise, turning the whole search into [] via
the except branch); here an out-of-range index yields none. -/
def resolveDoc (st : Index) (ci : Nat) : Option Doc :=
  match st.doc_map.find? (fun t => decide (t.2.1 ≤ ci ∧ ci < t.2.2)) with
  | some t => st.docs[t.1]?
  | none => none

/-- Line 199: chunk[:250] plus an ellipsis when truncated. -/
def snippetOf (chunk : Str) : Str :=
  chunk.take 250 ++ (if 250 < chunk.length then ['.', '.', '.'] else [])

/-- Lines 185-200: materialize results for the kept chunks (the loop appends
one result per resolvable kept chunk, skipping positions at or beyond the
chunk sequence). -/
def materialize (st : Index) (ranked : List (Nat × ℚ)) : List SearchResult :=
  ranked.filterMap (fun p =>
    if p.1 < st.chunks.length then
      (resolveDoc st p.1).map (fun d =>
        ⟨d.name, round4 p.2, snippetOf (st.chunks.getD p.1 [])⟩)
    else none)

/-- Lines 202-209: filename_to_best_result. -/
def bestByName (rs : List SearchResult) : List (Str × SearchResult) :=
  rs.foldl (fun d r =>
    match alget d r.filename with
    | none => alset d r.filename r
    | some cur => if cur.score < r.score then alset d r.filename r else d) []

/-- Line 211: list(filename_to_best_result.values()). -/
def dedupResults (rs : List SearchResult) : List SearchResult :=
  (bestByName rs).map Prod.snd

/-- Line 212: sort(key=score, reverse=True). -/
def sortResultsDesc (rs : List SearchResult) : List SearchResult :=
  List.insertionSort (fun a b => b.score ≤ a.score) rs

/-- The bert_similarities dict as it stands after the refinement block
(lines 131-167). -/
def searchSims (st : Index) (corpus : List (List Str)) (f : FaissIP)
    (query : Str) (top_k : Nat) : List (Nat × ℚ) :=
  let q_emb := st.embedder query
  let sims0 := bertSims0 st f q_emb top_k
  let bcands := bertCandidates st f q_emb top_k
  let top := bm25Top (st.bmScores corpus (qTokens query))
  let cands := candidateChunks st top bcands
  if cands ≠ [] then refineSims st q_emb cands sims0 else sims0

/-- The fused dict of line 169-178 as computed by Index.search. -/
def searchFused (st : Index) (corpus : List (List Str)) (f : FaissIP)
    (query : Str) (top_k : Nat) : List (Nat × ℚ) :=
  let bm25_scores := st.bmScores corpus (qTokens query)
  fusedScores st.valid_chunk_indices bm25_scores (bm25Top bm25_scores)
    (searchSims st corpus f query top_k)

/-- Line 183: ranked, the fused items sorted by descending score and cut to
the top 3 * top_k. -/
def searchRanked (st : Index) (corpus : List (List Str)) (f : FaissIP)
    (query : Str) (top_k : Nat) : List (Nat × ℚ) :=
  (rankByScoreDesc (searchFused st corpus f query top_k)).take (top_k * 3)

/-- Lines 185-200: the materialized result list before deduplication. -/
def searchResults (st : Index) (corpus : List (List Str)) (f : FaissIP)
    (query : Str) (top_k : Nat) : List SearchResult :=
  materialize st (searchRanked st corpus f query top_k)

/-- The body of the try block of Index.search once the guards have passed
(src/search.py lines 121-213), for a state whose bm25 and faiss fields hold
corpus and f. -/
def searchCore (st : Index) (corpus : List (List Str)) (f : FaissIP)
    (query : Str) (top_k : Nat) : List SearchResult :=
  if qTokens query = [] then []
  else
    if searchFused st corpus f query top_k = [] then []
    else
      (sortResultsDesc (dedupResults (searchResults st corpus f query top_k))).take top_k

/-- Index.search (src/search.py lines 111-218) with the state threaded
through explicitly: the source reads but never assigns the fields of self,
so every path returns the incoming state. -/
def Index.searchST (st : Index) (query : Str) (top_k : Nat) :
    List SearchResult × Index :=
  if pySplit query = [] then ([], st)
  else if st.chunks = [] then ([], st)
  else
    match st.bm25, st.index with
    | some corpus, some f => (searchCore st corpus f query top_k, st)
    | some _, none => ([], st)
    | none, _ => ([], st)

/-- Index.search's return value. -/
def Index.search (st : Index) (query : Str) (top_k : Nat) : List SearchResult :=
  (st.searchST query top_k).1

/-! ## Lemmas about whitespace splitting -/

theorem pySplitAux_ne_nil (s : List Char) (acc : List Char) (h : acc ≠ []) :
    pySplitAux s acc ≠ [] := by
  induction s generalizing acc with
  | nil => simp [pySplitAux, h]
  | cons c rest ih =>
    rw [pySplitAux]
    by_cases hc : isSpace c
    · rw [if_pos hc, if_neg h]
      simp
    · rw [if_neg hc]
      exact ih (c :: acc) (by simp)

theorem pySplit_eq_nil_iff (s : Str) : pySplit s = [] ↔ ∀ c ∈ s, isSpace c := by
  unfold pySplit
  induction s with
  | nil => simp [pySplitAux]
  | cons c rest ih =>
    rw [pySplitAux]
    by_cases hc : isSpace c
    · have hnil : (if ([] : List Char) = [] then pySplitAux rest []
          else [].reverse :: pySplitAux rest []) = pySplitAux rest [] := if_pos rfl
      rw [if_pos hc, hnil, ih]
      constructor
      · intro h d hd
        rcases List.mem_cons.mp hd with h1 | h1
        · rw [h1]; exact hc
        · exact h d h1
      · intro h d hd
        exact h d (List.mem_cons_of_mem _ hd)
    · rw [if_neg hc]
      constructor
      · intro h
        exact absurd h (pySplitAux_ne_nil rest [c] (by simp))
      · intro h
        exact absurd (h c (List.mem_cons_self _ _)) (by simp [hc])

/-! ## Concrete example states (used by witnesses and counterexamples) -/

/-- One-document state whose oracles give every chunk lexical score 1 and
vector similarity 1. -/
def exChunkS : Str := ("the quick brown fox").toList

def exSt1 : Index :=
  { docs := [⟨("1").toList, ("doc.pdf").toList, exChunkS, [exChunkS]⟩]
    chunks := [exChunkS]
    doc_map := [(0, 0, 1)]
    bm25 := some [pySplit (lowerStr exChunkS)]
    bmScores := fun c _ => c.map (fun _ => 1)
    embedder := fun _ => [1]
    index := some ⟨[[1]]⟩
    valid_chunk_indices := [0]
    bert_embeddings := some [[1]] }

/-- A 51-chunk state: lexical scores strictly decreasing in chunk position,
vector similarity 1 for the first five chunks and 0 for the rest. -/
def exMat51 : List (List ℚ) := (List.range 51).map (fun i => [if i < 5 then (1 : ℚ) else 0])

def exCorpus51 : List (List Str) := List.replicate 51 [['a']]

def exSt51 : Index :=
  { docs := [⟨("1").toList, ("doc.pdf").toList, ['a'], List.replicate 51 ['a']⟩]
    chunks := List.replicate 51 ['a']
    doc_map := [(0, 0, 51)]
    bm25 := some exCorpus51
    bmScores := fun c _ => (List.range c.length).map (fun i => ((51 - i : Nat) : ℚ))
    embedder := fun _ => [1]
    index := some ⟨exMat51⟩
    valid_chunk_indices := List.range 51
    bert_embeddings := some exMat51 }

/-! ## C6: degenerate inputs -/

/-- C6: Index.search returns the empty list whenever the query is empty or
whitespace-only, or no chunks have been ingested, or the lexical index is
null, or the vector index is null, or top_k = 0. -/
theorem claim_C6_degenerate_empty (st : Index) (query : Str) (top_k : Nat)
    (h : query = [] ∨ (∀ c ∈ query, isSpace c) ∨ st.chunks = [] ∨
      st.bm25 = none ∨ st.index = none ∨ top_k = 0) :
    st.search query top_k = [] := by
  unfold Index.search Index.searchST
  by_cases hq : pySplit query = []
  · rw [if_pos hq]
  · rw [if_neg hq]
    have hq2 : ¬(query = [] ∨ ∀ c ∈ query, isSpace c) := by
      intro hcon
      apply hq
      rcases hcon with h1 | h1
      · rw [h1]; rfl
      · exact (pySplit_eq_nil_iff query).mpr h1
    by_cases hc : st.chunks = []
    · rw [if_pos hc]
    · rw [if_neg hc]
      rcases h with h1 | h1 | h1 | h1 | h1 | h1
      · exact absurd (Or.inl h1) hq2
      · exact absurd (Or.inr h1) hq2
      · exact absurd h1 hc
      · rw [h1]
      · rw [h1]
        rcases hb : st.bm25 with _ | corpus
        · rfl
        · rfl
      · subst h1
        rcases hb : st.bm25 with _ | corpus
        · rfl
        · rcases hidx : st.index with _ | f
          · rfl
          · show searchCore st corpus f query 0 = []
            unfold searchCore
            by_cases hqt : qTokens query = []
            · rw [if_pos hqt]
            · rw [if_neg hqt]
              by_cases hf : searchFused st corpus f query 0 = []
              · rw [if_pos hf]
              · rw [if_neg hf]
                simp

theorem claim_C6_degenerate_empty_witness :
    ((("   ").toList = [] ∨ (∀ c ∈ ("   ").toList, isSpace c) ∨ exSt1.chunks = [] ∨
        exSt1.bm25 = none ∨ exSt1.index = none ∨ (5 : Nat) = 0)) ∧
      exSt1.search ("   ").toList 5 = [] :=
  ⟨Or.inr (Or.inl (by decide)),
    claim_C6_degenerate_empty exSt1 _ 5 (Or.inr (Or.inl (by decide)))⟩

/-! ## C8: add_document contract -/

/-- C8: Index.add_document returns false and leaves the store unchanged when
the text is empty, whitespace-only, or chunks to an empty sequence;
otherwise it appends exactly one Document, extends the global chunk sequence
by that document's chunks, appends exactly one Doc Interval Map triple
covering exactly the new positions, and returns true. -/
theorem claim_C8_add_document (st : Index) (doc_id name text : Str) :
    ((text = [] ∨ (∀ c ∈ text, isSpace c) ∨ chunk_text text 200 50 = []) →
      st.add_document doc_id name text = (false, st)) ∧
    ((¬ (text = [] ∨ (∀ c ∈ text, isSpace c) ∨ chunk_text text 200 50 = [])) →
      st.add_document doc_id name text =
        (true,
          { st with
            chunks := st.chunks ++ chunk_text text 200 50
            docs := st.docs ++ [⟨doc_id, name, text, chunk_text text 200 50⟩]
            doc_map := st.doc_map ++ [(st.docs.length, st.chunks.length,
              st.chunks.length + (chunk_text text 200 50).length)] })) := by
  constructor
  · intro h
    have hsplit : pySplit text = [] := by
      rcases h with h1 | h1 | h1
      · rw [h1]; rfl
      · exact (pySplit_eq_nil_iff text).mpr h1
      · exact (chunk_text_nil_iff text).mp h1
    unfold Index.add_document
    rw [if_pos hsplit]
  · intro h
    have hsplit : pySplit text ≠ [] := by
      intro hcon
      exact h (Or.inr (Or.inl ((pySplit_eq_nil_iff text).mp hcon)))
    have hchunks : chunk_text text 200 50 ≠ [] := by
      intro hcon
      exact h (Or.inr (Or.inr hcon))
    unfold Index.add_document
    rw [if_neg hsplit, if_neg hchunks]

theorem claim_C8_add_document_witness :
    ((∀ c ∈ ([' '] : Str), isSpace c) ∧
      exSt1.add_document ['2'] ['b'] [' '] = (false, exSt1)) ∧
    ((¬ ((['b'] : Str) = [] ∨ (∀ c ∈ (['b'] : Str), isSpace c) ∨
        chunk_text ['b'] 200 50 = [])) ∧
      (exSt1.add_document ['2'] ['n'] ['b']).1 = true) := by
  refine ⟨⟨by decide, ?_⟩, ⟨by decide, ?_⟩⟩
  · exact (claim_C8_add_document exSt1 ['2'] ['b'] [' ']).1 (Or.inr (Or.inl (by decide)))
  · rw [(claim_C8_add_document exSt1 ['2'] ['n'] ['b']).2 (by decide)]

/-! ## C9: search does not modify the index -/

/-- C9: Index.search never modifies the index state: with the state threaded
through the search explicitly, every path (guard returns and the full
pipeline) hands back the incoming state, so docs, chunks, doc_map, bm25,
index, valid_chunk_indices and bert_embeddings are all unchanged. -/
theorem claim_C9_search_frame (st : Index) (query : Str) (top_k : Nat) :
    (st.searchST query top_k).2 = st := by
  unfold Index.searchST
  by_cases hq : pySplit query = []
  · rw [if_pos hq]
  · rw [if_neg hq]
    by_cases hc : st.chunks = []
    · rw [if_pos hc]
    · rw [if_neg hc]
      rcases st.bm25 with _ | corpus
      · rfl
      · rcases st.index with _ | f
        · rfl
        · rfl

/-! ## C5: at most top_k results, scores non-increasing -/

theorem sortResultsDesc_sorted (rs : List SearchResult) :
    List.Sorted (fun a b => b.score ≤ a.score) (sortResultsDesc rs) := by
  haveI : IsTotal SearchResult (fun a b => b.score ≤ a.score) :=
    ⟨fun a b => le_total b.score a.score⟩
  haveI : IsTrans SearchResult (fun a b => b.score ≤ a.score) :=
    ⟨fun _ _ _ hab hbc => le_trans hbc hab⟩
  exact List.sorted_insertionSort _ rs

/-- C5: for every query and top_k, the list returned by Index.search has at
most top_k entries and its scores are non-increasing from the first entry to
the last. -/
theorem claim_C5_topk_and_order (st : Index) (query : Str) (top_k : Nat) :
    (st.search query top_k).length ≤ top_k ∧
      List.Sorted (· ≥ ·) ((st.search query top_k).map SearchResult.score) := by
  have key : ∀ rs : List SearchResult,
      rs = st.search query top_k →
      (rs = [] ∨ ∃ ds, rs = (sortResultsDesc ds).take top_k) →
      rs.length ≤ top_k ∧ List.Sorted (· ≥ ·) (rs.map SearchResult.score) := by
    intro rs _ hshape
    rcases hshape with h1 | ⟨ds, h1⟩
    · subst h1
      exact ⟨Nat.zero_le _, List.sorted_nil⟩
    · subst h1
      constructor
      · calc ((sortResultsDesc ds).take top_k).length
            = min top_k (sortResultsDesc ds).length := List.length_take _ _
          _ ≤ top_k := Nat.min_le_left _ _
      · have hs : List.Sorted (fun a b => b.score ≤ a.score)
            ((sortResultsDesc ds).take top_k) :=
          (sortResultsDesc_sorted ds).sublist (List.take_sublist _ _)
        exact List.Pairwise.map _ (fun a b hab => hab) hs
  apply key _ rfl
  unfold Index.search Index.searchST
  by_cases hq : pySplit query = []
  · rw [if_pos hq]; left; rfl
  · rw [if_neg hq]
    by_cases hc : st.chunks = []
    · rw [if_pos hc]; left; rfl
    · rw [if_neg hc]
      rcases st.bm25 with _ | corpus
      · left; rfl
      · rcases st.index with _ | f
        · left; rfl
        · show searchCore st corpus f query top_k = [] ∨
            ∃ ds, searchCore st corpus f query top_k = (sortResultsDesc ds).take top_k
          unfold searchCore
          by_cases hqt : qTokens query = []
          · rw [if_pos hqt]; left; rfl
          · rw [if_neg hqt]
            by_cases hf : searchFused st corpus f query top_k = []
            · rw [if_pos hf]; left; rfl
            · rw [if_neg hf]
              right
              exact ⟨_, rfl⟩

/-! ## C7: rebuild alignment invariant -/

theorem rebuildPairs_spec (chunks : List Str) (p : Nat × List Str)
    (hp : p ∈ rebuildPairs chunks) :
    p.2 = pySplit (lowerStr (chunks.getD p.1 [])) := by
  rcases List.mem_filterMap.mp hp with ⟨ic, hic, hout⟩
  have hchunk : chunks[ic.1]? = some ic.2 := List.mem_enum_iff_getElem?.mp hic
  have hgetD : chunks.getD ic.1 [] = ic.2 := by
    rw [List.getD_eq_getElem?_getD, hchunk]
    rfl
  by_cases h1 : pySplit ic.2 ≠ []
  · rw [if_pos h1] at hout
    by_cases h2 : pySplit (lowerStr ic.2) ≠ []
    · simp only [if_pos h2] at hout
      cases hout
      rw [hgetD]
    · simp only [if_neg h2] at hout
      cases hout
  · rw [if_neg h1] at hout
    cases hout

/-- C7: after any successful rebuild (one that installs a lexical corpus and
a vector index), the lexical corpus, the embedding matrix and the faiss
vectors all have exactly one row per entry of valid_chunk_indices, and row i
of each is derived from the chunk at global position valid_chunk_indices[i]
(the corpus row is its lower-cased tokenization, the embedding row its
embedder image). -/
theorem rebuild_success_eq (st : Index) (hc : st.chunks ≠ [])
    (hp : rebuildPairs st.chunks ≠ [])
    (hsz : 0 < (((((rebuildPairs st.chunks).map Prod.fst).map
      (fun i => st.chunks.getD i [])).map st.embedder).map List.length).sum) :
    st.rebuild =
      { st with
        bm25 := some ((rebuildPairs st.chunks).map Prod.snd)
        valid_chunk_indices := (rebuildPairs st.chunks).map Prod.fst
        index := some ⟨(((rebuildPairs st.chunks).map Prod.fst).map
          (fun i => st.chunks.getD i [])).map st.embedder⟩
        bert_embeddings := some ((((rebuildPairs st.chunks).map Prod.fst).map
          (fun i => st.chunks.getD i [])).map st.embedder) } := by
  have ht : (rebuildPairs st.chunks).map Prod.snd ≠ [] := by
    simpa using hp
  have hv : (rebuildPairs st.chunks).map Prod.fst ≠ [] := by
    simpa using hp
  unfold Index.rebuild
  rw [if_neg hc]
  simp only [if_pos ht, if_pos hv, if_pos hsz]

/-- C7: after any successful rebuild (one that installs a lexical corpus and
a vector index), the lexical corpus, the embedding matrix and the faiss
vectors all have exactly one row per entry of valid_chunk_indices, and row i
of each is derived from the chunk at global position valid_chunk_indices[i]
(the corpus row is its lower-cased tokenization, the embedding row its
embedder image). -/
theorem claim_C7_alignment (st : Index) (corpus : List (List Str))
    (emb : List (List ℚ)) (f : FaissIP)
    (hb : (st.rebuild).bm25 = some corpus)
    (hf : (st.rebuild).index = some f)
    (he : (st.rebuild).bert_embeddings = some emb) :
    corpus.length = (st.rebuild).valid_chunk_indices.length ∧
      emb.length = (st.rebuild).valid_chunk_indices.length ∧
      f.vecs = emb ∧
      corpus = (st.rebuild).valid_chunk_indices.map
        (fun ci => pySplit (lowerStr (st.chunks.getD ci []))) ∧
      emb = (st.rebuild).valid_chunk_indices.map
        (fun ci => st.embedder (st.chunks.getD ci [])) := by
  by_cases hc : st.chunks = []
  · exfalso
    unfold Index.rebuild at hb
    rw [if_pos hc] at hb
    cases hb
  · have hp : rebuildPairs st.chunks ≠ [] := by
      intro hcon
      unfold Index.rebuild at hf
      rw [if_neg hc] at hf
      simp [hcon] at hf
    have hsz : 0 < (((((rebuildPairs st.chunks).map Prod.fst).map
        (fun i => st.chunks.getD i [])).map st.embedder).map List.length).sum := by
      by_contra hcon
      unfold Index.rebuild at hf
      rw [if_neg hc] at hf
      have hv : (rebuildPairs st.chunks).map Prod.fst ≠ [] := by simpa using hp
      simp only [if_pos hv, if_neg hcon] at hf
      cases hf
    rw [rebuild_success_eq st hc hp hsz] at hb hf he ⊢
    simp only [Option.some.injEq] at hb hf he
    subst hb
    subst he
    refine ⟨by simp, by simp, by rw [← hf], ?_, ?_⟩
    · have hmap : ∀ p ∈ rebuildPairs st.chunks, Prod.snd p =
          (fun ci => pySplit (lowerStr (st.chunks.getD ci []))) (Prod.fst p) :=
        fun p hpm => rebuildPairs_spec st.chunks p hpm
      show (rebuildPairs st.chunks).map Prod.snd =
        ((rebuildPairs st.chunks).map Prod.fst).map
          (fun ci => pySplit (lowerStr (st.chunks.getD ci [])))
      rw [List.map_map]
      exact List.map_congr_left hmap
    · show (((rebuildPairs st.chunks).map Prod.fst).map
          (fun i => st.chunks.getD i [])).map st.embedder =
        ((rebuildPairs st.chunks).map Prod.fst).map
          (fun ci => st.embedder (st.chunks.getD ci []))
      rw [List.map_map]
      simp [Function.comp]

theorem claim_C7_alignment_witness :
    ((exSt1.rebuild).bm25 = some [pySplit (lowerStr exChunkS)] ∧
        (exSt1.rebuild).index = some ⟨[exSt1.embedder exChunkS]⟩ ∧
        (exSt1.rebuild).bert_embeddings = some [exSt1.embedder exChunkS]) ∧
      [pySplit (lowerStr exChunkS)].length = (exSt1.rebuild).valid_chunk_indices.length := by
  have h1 : (exSt1.rebuild).bm25 = some [pySplit (lowerStr exChunkS)] := by
    with_unfolding_all decide
  have h2 : (exSt1.rebuild).index = some ⟨[exSt1.embedder exChunkS]⟩ := by
    with_unfolding_all decide
  have h3 : (exSt1.rebuild).bert_embeddings = some [exSt1.embedder exChunkS] := by
    with_unfolding_all decide
  exact ⟨⟨h1, h2, h3⟩,
    (claim_C7_alignment exSt1 [pySplit (lowerStr exChunkS)]
      [exSt1.embedder exChunkS] ⟨[exSt1.embedder exChunkS]⟩ h1 h2 h3).1⟩

/-! ## Association-list lemmas -/

section AlistLemmas

variable {κ ν : Type} [DecidableEq κ]

theorem alget_alset_self (d : List (κ × ν)) (k : κ) (v : ν) :
    alget (alset d k v) k = some v := by
  unfold alset
  by_cases h : (alget d k).isSome
  · rw [if_pos h]
    induction d with
    | nil => simp [alget] at h
    | cons p rest ih =>
      by_cases hp : p.1 = k
      · simp only [List.map_cons, if_pos hp, alget, eq_self_iff_true, if_true]
      · simp only [List.map_cons, if_neg hp, alget, if_neg hp]
        apply ih
        rw [alget, if_neg hp] at h
        exact h
  · rw [if_neg h]
    induction d with
    | nil => simp [alget]
    | cons p rest ih =>
      by_cases hp : p.1 = k
      · exfalso
        apply h
        rw [alget, if_pos hp]
        rfl
      · rw [List.cons_append, alget, if_neg hp]
        apply ih
        rw [alget, if_neg hp] at h
        exact h

theorem alget_map_replace (d : List (κ × ν)) (k k' : κ) (v : ν) (h : k' ≠ k) :
    alget (d.map (fun p => if p.1 = k then (k, v) else p)) k' = alget d k' := by
  induction d with
  | nil => rfl
  | cons p rest ih =>
    by_cases hp : p.1 = k
    · simp only [List.map_cons, if_pos hp, alget]
      rw [if_neg (fun hc : k = k' => h hc.symm), if_neg (fun hc : p.1 = k' => h (hp ▸ hc).symm)]
      exact ih
    · simp only [List.map_cons, if_neg hp, alget]
      by_cases hpk : p.1 = k'
      · rw [if_pos hpk, if_pos hpk]
      · rw [if_neg hpk, if_neg hpk]
        exact ih

theorem alget_append_single (d : List (κ × ν)) (k k' : κ) (v : ν) (h : k' ≠ k) :
    alget (d ++ [(k, v)]) k' = alget d k' := by
  induction d with
  | nil =>
    simp only [List.nil_append, alget]
    rw [if_neg (fun hc : k = k' => h hc.symm)]
  | cons p rest ih =>
    simp only [List.cons_append, alget]
    by_cases hpk : p.1 = k'
    · rw [if_pos hpk, if_pos hpk]
    · rw [if_neg hpk, if_neg hpk]
      exact ih

theorem alget_alset_ne (d : List (κ × ν)) (k k' : κ) (v : ν) (h : k' ≠ k) :
    alget (alset d k v) k' = alget d k' := by
  unfold alset
  by_cases hs : (alget d k).isSome
  · rw [if_pos hs]
    exact alget_map_replace d k k' v h
  · rw [if_neg hs]
    exact alget_append_single d k k' v h

theorem mem_alset (d : List (κ × ν)) (k : κ) (v : ν) (p : κ × ν)
    (hp : p ∈ alset d k v) : p = (k, v) ∨ p ∈ d := by
  unfold alset at hp
  by_cases hs : (alget d k).isSome
  · rw [if_pos hs] at hp
    rcases List.mem_map.mp hp with ⟨q, hq, hqp⟩
    by_cases hqk : q.1 = k
    · rw [if_pos hqk] at hqp
      exact Or.inl hqp.symm
    · rw [if_neg hqk] at hqp
      exact Or.inr (hqp ▸ hq)
  · rw [if_neg hs] at hp
    rcases List.mem_append.mp hp with h1 | h1
    · exact Or.inr h1
    · exact Or.inl (List.mem_singleton.mp h1)

theorem alget_isSome_iff (d : List (κ × ν)) (k : κ) :
    (alget d k).isSome ↔ k ∈ d.map Prod.fst := by
  induction d with
  | nil => simp [alget]
  | cons p rest ih =>
    simp only [alget, List.map_cons, List.mem_cons]
    by_cases hp : p.1 = k
    · simp [hp]
    · rw [if_neg hp, ih]
      constructor
      · exact Or.inr
      · intro h
        rcases h with h1 | h1
        · exact absurd h1.symm hp
        · exact h1

theorem keys_alset (d : List (κ × ν)) (k : κ) (v : ν) :
    (alset d k v).map Prod.fst = d.map Prod.fst ∨
      (alset d k v).map Prod.fst = d.map Prod.fst ++ [k] := by
  unfold alset
  by_cases hs : (alget d k).isSome
  · rw [if_pos hs]
    left
    rw [List.map_map]
    apply List.map_congr_left
    intro q _
    by_cases hqk : q.1 = k
    · simp [hqk]
    · simp [hqk]
  · rw [if_neg hs]
    right
    simp

theorem keys_nodup_alset (d : List (κ × ν)) (k : κ) (v : ν)
    (h : (d.map Prod.fst).Nodup) : ((alset d k v).map Prod.fst).Nodup := by
  rcases keys_alset d k v with hk | hk
  · rw [hk]; exact h
  · rw [hk]
    have hnot : k ∉ d.map Prod.fst := by
      intro hc
      have := (alget_isSome_iff d k).mpr hc
      unfold alset at hk
      rw [if_pos this] at hk
      have hlen := congrArg List.length hk
      simp at hlen
    simp [List.nodup_append, h, hnot]

theorem alget_eq_some_of_mem_nodup (d : List (κ × ν)) (p : κ × ν)
    (hnd : (d.map Prod.fst).Nodup) (hp : p ∈ d) : alget d p.1 = some p.2 := by
  induction d with
  | nil => cases hp
  | cons q rest ih =>
    rcases List.mem_cons.mp hp with h1 | h1
    · subst h1
      rw [alget, if_pos rfl]
    · rw [alget]
      by_cases hq : q.1 = p.1
      · exfalso
        rw [List.map_cons] at hnd
        have := (List.nodup_cons.mp hnd).1
        exact this (hq ▸ List.mem_map_of_mem Prod.fst h1)
      · rw [if_neg hq]
        exact ih (List.nodup_cons.mp (List.map_cons Prod.fst q rest ▸ hnd)).2 h1

theorem mem_of_alget_eq_some (d : List (κ × ν)) (k : κ) (v : ν)
    (h : alget d k = some v) : (k, v) ∈ d := by
  induction d with
  | nil => cases h
  | cons p rest ih =>
    rw [alget] at h
    by_cases hp : p.1 = k
    · rw [if_pos hp] at h
      have hv : v = p.2 := (Option.some.injEq _ _ ▸ h).symm
      have : (k, v) = p := by
        rw [hv, ← hp]
      rw [this]
      exact List.mem_cons_self _ _
    · rw [if_neg hp] at h
      exact List.mem_cons_of_mem _ (ih h)

theorem mem_alset_self_key (d : List (κ × ν)) (k : κ) (v : ν) (p : κ × ν)
    (hp : p ∈ alset d k v) (hk : p.1 = k) : p = (k, v) := by
  unfold alset at hp
  by_cases hs : (alget d k).isSome
  · rw [if_pos hs] at hp
    rcases List.mem_map.mp hp with ⟨q, _, hqp⟩
    by_cases hqk : q.1 = k
    · rw [if_pos hqk] at hqp
      exact hqp.symm
    · rw [if_neg hqk] at hqp
      exact absurd (hqp ▸ hk) hqk
  · rw [if_neg hs] at hp
    rcases List.mem_append.mp hp with h1 | h1
    · exfalso
      apply hs
      rw [alget_isSome_iff]
      exact hk ▸ List.mem_map_of_mem Prod.fst h1
    · exact List.mem_singleton.mp h1

end AlistLemmas

/-! ## C4: per-filename deduplication keeps the maximum -/

/-- The filename the materialization step assigns to a kept chunk position
(none when the position is skipped or resolves to no document). -/
def chunkFilename (st : Index) (ci : Nat) : Option Str :=
  if ci < st.chunks.length then (resolveDoc st ci).map Doc.name else none

/-- The invariant of the filename_to_best_result fold: keys are distinct,
each entry holds a result from the processed prefix carrying its key as
filename with the maximum score among processed results of that filename,
and every processed filename has an entry. -/
def BestInv (processed : List SearchResult) (d : List (Str × SearchResult)) : Prop :=
  (d.map Prod.fst).Nodup ∧
  (∀ p ∈ d, p.2.filename = p.1 ∧ p.2 ∈ processed ∧
    ∀ r ∈ processed, r.filename = p.1 → r.score ≤ p.2.score) ∧
  (∀ r ∈ processed, (alget d r.filename).isSome)

theorem bestByName_inv_step (rs : List SearchResult) :
    ∀ (d : List (Str × SearchResult)) (processed : List SearchResult),
      BestInv processed d →
      BestInv (processed ++ rs)
        (rs.foldl (fun d r =>
          match alget d r.filename with
          | none => alset d r.filename r
          | some cur => if cur.score < r.score then alset d r.filename r else d) d) := by
  induction rs with
  | nil =>
    intro d processed h
    simpa using h
  | cons r rest ih =>
    intro d processed h
    rcases h with ⟨hnd, hmem, hall⟩
    rw [List.foldl_cons]
    have hstep : BestInv (processed ++ [r])
        (match alget d r.filename with
          | none => alset d r.filename r
          | some cur => if cur.score < r.score then alset d r.filename r else d) := by
      rcases hget : alget d r.filename with _ | cur
      · refine ⟨keys_nodup_alset d _ r hnd, ?_, ?_⟩
        · intro p hp
          by_cases hk : p.1 = r.filename
          · have hpe : p = (r.filename, r) := mem_alset_self_key d _ r p hp hk
            rw [hpe]
            refine ⟨rfl, List.mem_append.mpr (Or.inr (List.mem_singleton_self _)), ?_⟩
            intro q hq hqf
            rcases List.mem_append.mp hq with h1 | h1
            · exfalso
              have := hall q h1
              rw [hqf, hget] at this
              cases this
            · rw [List.mem_singleton.mp h1]
          · have hpd : p ∈ d := by
              rcases mem_alset d _ r p hp with h1 | h1
              · exact absurd (h1 ▸ rfl) hk
              · exact h1
            rcases hmem p hpd with ⟨h1, h2, h3⟩
            refine ⟨h1, List.mem_append.mpr (Or.inl h2), ?_⟩
            intro q hq hqf
            rcases List.mem_append.mp hq with hq1 | hq1
            · exact h3 q hq1 hqf
            · rw [List.mem_singleton.mp hq1] at hqf
              exact absurd hqf.symm hk
        · intro q hq
          rcases List.mem_append.mp hq with h1 | h1
          · by_cases hqf : q.filename = r.filename
            · rw [hqf, alget_alset_self]
              rfl
            · rw [alget_alset_ne d _ _ r hqf]
              exact hall q h1
          · rw [List.mem_singleton.mp h1, alget_alset_self]
            rfl
      · show BestInv (processed ++ [r])
          (if cur.score < r.score then alset d r.filename r else d)
        by_cases hlt : cur.score < r.score
        · rw [if_pos hlt]
          refine ⟨keys_nodup_alset d _ r hnd, ?_, ?_⟩
          · intro p hp
            by_cases hk : p.1 = r.filename
            · have hpe : p = (r.filename, r) := mem_alset_self_key d _ r p hp hk
              rw [hpe]
              refine ⟨rfl, List.mem_append.mpr (Or.inr (List.mem_singleton_self _)), ?_⟩
              intro q hq hqf
              rcases List.mem_append.mp hq with h1 | h1
              · have hcur := hmem (r.filename, cur) (mem_of_alget_eq_some d _ _ hget)
                have := hcur.2.2 q h1 hqf
                exact le_trans this (le_of_lt hlt)
              · rw [List.mem_singleton.mp h1]
            · have hpd : p ∈ d := by
                rcases mem_alset d _ r p hp with h1 | h1
                · exact absurd (h1 ▸ rfl) hk
                · exact h1
              rcases hmem p hpd with ⟨h1, h2, h3⟩
              refine ⟨h1, List.mem_append.mpr (Or.inl h2), ?_⟩
              intro q hq hqf
              rcases List.mem_append.mp hq with hq1 | hq1
              · exact h3 q hq1 hqf
              · exfalso
                rw [List.mem_singleton.mp hq1] at hqf
                exact hk hqf.symm
          · intro q hq
            rcases List.mem_append.mp hq with h1 | h1
            · by_cases hqf : q.filename = r.filename
              · rw [hqf, alget_alset_self]
                rfl
              · rw [alget_alset_ne d _ _ r hqf]
                exact hall q h1
            · rw [List.mem_singleton.mp h1, alget_alset_self]
              rfl
        · rw [if_neg hlt]
          refine ⟨hnd, ?_, ?_⟩
          · intro p hp
            rcases hmem p hp with ⟨h1, h2, h3⟩
            refine ⟨h1, List.mem_append.mpr (Or.inl h2), ?_⟩
            intro q hq hqf
            rcases List.mem_append.mp hq with hq1 | hq1
            · exact h3 q hq1 hqf
            · rw [List.mem_singleton.mp hq1] at hqf ⊢
              by_cases hpk : p.1 = r.filename
              · have : p = (r.filename, cur) := by
                  have h4 := alget_eq_some_of_mem_nodup d p hnd hp
                  rw [hpk, hget] at h4
                  have h5 : p.2 = cur := by
                    cases h4
                    rfl
                  cases p
                  simp only at hpk h5
                  rw [hpk, h5]
                rw [this]
                exact le_of_not_lt hlt
              · exact absurd (hqf ▸ rfl) hpk
          · intro q hq
            rcases List.mem_append.mp hq with h1 | h1
            · exact hall q h1
            · rw [List.mem_singleton.mp h1, hget]
              rfl
    have := ih _ (processed ++ [r]) hstep
    rw [List.append_assoc] at this
    simpa using this

theorem bestByName_spec (rs : List SearchResult) :
    BestInv rs (bestByName rs) := by
  have h0 : BestInv [] ([] : List (Str × SearchResult)) := by
    refine ⟨List.nodup_nil, ?_, ?_⟩
    · intro p hp
      cases hp
    · intro r hr
      cases hr
  have := bestByName_inv_step rs [] [] h0
  simpa [bestByName] using this

theorem mem_materialize (st : Index) (ranked : List (Nat × ℚ)) (r : SearchResult)
    (hr : r ∈ materialize st ranked) :
    ∃ p ∈ ranked, chunkFilename st p.1 = some r.filename ∧ r.score = round4 p.2 := by
  rcases List.mem_filterMap.mp hr with ⟨p, hp, hout⟩
  by_cases hlt : p.1 < st.chunks.length
  · rw [if_pos hlt] at hout
    rcases Option.map_eq_some'.mp hout with ⟨d, hd, hr2⟩
    refine ⟨p, hp, ?_, ?_⟩
    · unfold chunkFilename
      rw [if_pos hlt, hd, ← hr2]
      rfl
    · rw [← hr2]
  · rw [if_neg hlt] at hout
    cases hout

theorem materialize_intro (st : Index) (ranked : List (Nat × ℚ)) (p : Nat × ℚ)
    (hp : p ∈ ranked) (nm : Str) (hnm : chunkFilename st p.1 = some nm) :
    (⟨nm, round4 p.2, snippetOf (st.chunks.getD p.1 [])⟩ : SearchResult) ∈
      materialize st ranked := by
  unfold chunkFilename at hnm
  by_cases hlt : p.1 < st.chunks.length
  · rw [if_pos hlt] at hnm
    rcases Option.map_eq_some'.mp hnm with ⟨d, hd, hdn⟩
    apply List.mem_filterMap.mpr
    refine ⟨p, hp, ?_⟩
    rw [if_pos hlt, hd]
    simp [hdn]
  · rw [if_neg hlt] at hnm
    cases hnm

/-- C4: the result list returned by Index.search contains at most one entry
per distinct filename, and that entry's score is the maximum fused score,
rounded to 4 decimals, among all chunks that survived the top-(3*top_k) cut
and resolve to that filename. -/
theorem claim_C4_dedup_max (st : Index) (corpus : List (List Str)) (f : FaissIP)
    (query : Str) (top_k : Nat)
    (hb : st.bm25 = some corpus) (hi : st.index = some f) :
    ((st.search query top_k).map (fun r => r.filename)).Nodup ∧
      ∀ e ∈ st.search query top_k,
        (∃ p ∈ searchRanked st corpus f query top_k,
          chunkFilename st p.1 = some e.filename ∧ e.score = round4 p.2) ∧
        ∀ p ∈ searchRanked st corpus f query top_k,
          chunkFilename st p.1 = some e.filename → round4 p.2 ≤ e.score := by
  have hmain : st.search query top_k = [] ∨
      st.search query top_k =
        (sortResultsDesc (dedupResults (searchResults st corpus f query top_k))).take top_k := by
    unfold Index.search Index.searchST
    by_cases hq : pySplit query = []
    · rw [if_pos hq]
      exact Or.inl rfl
    · rw [if_neg hq]
      by_cases hc : st.chunks = []
      · rw [if_pos hc]
        exact Or.inl rfl
      · rw [if_neg hc]
        simp only [hb, hi]
        show searchCore st corpus f query top_k = [] ∨ _
        unfold searchCore
        by_cases hqt : qTokens query = []
        · rw [if_pos hqt]
          exact Or.inl rfl
        · rw [if_neg hqt]
          by_cases hf2 : searchFused st corpus f query top_k = []
          · rw [if_pos hf2]
            exact Or.inl rfl
          · rw [if_neg hf2]
            exact Or.inr rfl
  rcases hmain with hmain | hmain
  · rw [hmain]
    exact ⟨List.nodup_nil, fun e he => absurd he (List.not_mem_nil e)⟩
  · rw [hmain]
    set rs := searchResults st corpus f query top_k with hrs
    have hinv := bestByName_spec rs
    have hperm : List.Perm (sortResultsDesc (dedupResults rs)) (dedupResults rs) :=
      List.perm_insertionSort _ _
    have hkeys : (dedupResults rs).map (fun r => r.filename) =
        (bestByName rs).map Prod.fst := by
      unfold dedupResults
      rw [List.map_map]
      apply List.map_congr_left
      intro p hp
      exact (hinv.2.1 p hp).1
    constructor
    · have h1 : ((sortResultsDesc (dedupResults rs)).map (fun r => r.filename)).Nodup := by
        have := hperm.map (fun r => r.filename)
        rw [this.nodup_iff, hkeys]
        exact hinv.1
      exact h1.sublist ((List.take_sublist _ _).map _)
    · intro e he
      have hed : e ∈ dedupResults rs := by
        have h1 : e ∈ sortResultsDesc (dedupResults rs) :=
          List.take_subset _ _ he
        exact hperm.mem_iff.mp h1
      rcases List.mem_map.mp hed with ⟨p, hp, hpe⟩
      rcases hinv.2.1 p hp with ⟨hfn, hmem, hmax⟩
      rw [hpe] at hfn hmem hmax
      constructor
      · exact mem_materialize st _ e hmem
      · intro q hq hqf
        have hr2 : (⟨e.filename, round4 q.2,
            snippetOf (st.chunks.getD q.1 [])⟩ : SearchResult) ∈ rs :=
          materialize_intro st _ q hq e.filename hqf
        have := hmax _ hr2 (by rw [← hfn])
        exact this

theorem claim_C4_dedup_max_witness :
    (exSt1.bm25 = some [pySplit (lowerStr exChunkS)] ∧ exSt1.index = some ⟨[[1]]⟩) ∧
      ((exSt1.search ("fox").toList 5).map (fun r => r.filename)).Nodup :=
  ⟨⟨rfl, rfl⟩,
    (claim_C4_dedup_max exSt1 [pySplit (lowerStr exChunkS)] ⟨[[1]]⟩
      ("fox").toList 5 rfl rfl).1⟩

/-! ## C1: the fused-score formula -/

theorem foldl_max_le (l : List ℚ) : ∀ (a x : ℚ), x = a ∨ x ∈ l → x ≤ l.foldl max a := by
  induction l with
  | nil =>
    intro a x hx
    rcases hx with h | h
    · exact le_of_eq (h ▸ rfl)
    · cases h
  | cons b rest ih =>
    intro a x hx
    rw [List.foldl_cons]
    rcases hx with h | h
    · exact le_trans (h ▸ le_max_left a b) (ih (max a b) (max a b) (Or.inl rfl))
    · rcases List.mem_cons.mp h with h1 | h1
      · exact le_trans (h1 ▸ le_max_right a b) (ih (max a b) (max a b) (Or.inl rfl))
      · exact ih (max a b) x (Or.inr h1)

theorem foldl_max_cases (l : List ℚ) : ∀ a : ℚ, l.foldl max a = a ∨ l.foldl max a ∈ l := by
  induction l with
  | nil => intro a; exact Or.inl rfl
  | cons b rest ih =>
    intro a
    rw [List.foldl_cons]
    rcases ih (max a b) with h | h
    · rcases max_cases a b with ⟨h1, _⟩ | ⟨h1, _⟩
      · exact Or.inl (h.trans h1)
      · exact Or.inr (List.mem_cons.mpr (Or.inl (h.trans h1)))
    · exact Or.inr (List.mem_cons_of_mem _ h)

theorem pyMax_ge (l : List ℚ) (x : ℚ) (hx : x ∈ l) : x ≤ pyMax l :=
  foldl_max_le l (l.headD 0) x (Or.inr hx)

theorem pyMax_mem (l : List ℚ) (h : l ≠ []) : pyMax l ∈ l := by
  rcases foldl_max_cases l (l.headD 0) with h1 | h1
  · rw [pyMax, h1]
    cases l with
    | nil => exact absurd rfl h
    | cons a rest => exact List.mem_cons_self _ _
  · exact h1

theorem pyMax_eq_of (l : List ℚ) (x : ℚ) (hx : x ∈ l) (hmax : ∀ y ∈ l, y ≤ x) :
    pyMax l = x :=
  le_antisymm (hmax _ (pyMax_mem l (List.ne_nil_of_mem hx))) (pyMax_ge l x hx)

theorem argsortDesc_perm (s : List ℚ) :
    List.Perm (argsortDesc s) (List.range s.length) :=
  List.perm_insertionSort _ _

theorem argsortDesc_nodup (s : List ℚ) : (argsortDesc s).Nodup :=
  ((argsortDesc_perm s).nodup_iff).mpr (List.nodup_range _)

theorem argsortDesc_sorted (s : List ℚ) :
    List.Sorted (argRel s) (argsortDesc s) := by
  haveI : IsTotal Nat (argRel s) := by
    constructor
    intro i j
    rcases lt_trichotomy (s.getD i 0) (s.getD j 0) with h | h | h
    · exact Or.inr (Or.inl h)
    · rcases Nat.le_total i j with h2 | h2
      · exact Or.inl (Or.inr ⟨h, h2⟩)
      · exact Or.inr (Or.inr ⟨h.symm, h2⟩)
    · exact Or.inl (Or.inl h)
  haveI : IsTrans Nat (argRel s) := by
    constructor
    intro i j k hij hjk
    rcases hij with h1 | ⟨h1, h1b⟩
    · rcases hjk with h2 | ⟨h2, _⟩
      · exact Or.inl (h2.trans h1)
      · exact Or.inl (h2 ▸ h1)
    · rcases hjk with h2 | ⟨h2, h2b⟩
      · exact Or.inl (h1 ▸ h2)
      · exact Or.inr ⟨h1.trans h2, h1b.trans h2b⟩
  exact List.sorted_insertionSort _ _

theorem bm25Top_nodup (s : List ℚ) : (bm25Top s).Nodup :=
  (argsortDesc_nodup s).sublist (List.take_sublist _ _)

theorem bm25Top_mem_lt (s : List ℚ) (j : Nat) (hj : j ∈ bm25Top s) : j < s.length := by
  have h1 : j ∈ argsortDesc s := List.take_subset _ _ hj
  have h2 : j ∈ List.range s.length := (argsortDesc_perm s).subset h1
  exact List.mem_range.mp h2

theorem pyMax_bm25Top (s : List ℚ) (hs : s ≠ []) :
    pyMax ((bm25Top s).map (fun j => s.getD j 0)) = pyMax s := by
  have hlen : 0 < s.length := List.length_pos.mpr hs
  have hsortlen : (argsortDesc s).length = s.length := by
    rw [(argsortDesc_perm s).length_eq, List.length_range]
  obtain ⟨a, rest, hcons⟩ : ∃ a rest, argsortDesc s = a :: rest := by
    cases hsort : argsortDesc s with
    | nil =>
      exfalso
      rw [hsort] at hsortlen
      simp at hsortlen
      omega
    | cons a rest => exact ⟨a, rest, rfl⟩
  have hmin : min 100 s.length = (min 100 s.length - 1) + 1 := by omega
  have htop : bm25Top s = a :: rest.take (min 100 s.length - 1) := by
    rw [bm25Top, hcons]
    nth_rewrite 1 [hmin]
    rw [List.take_succ_cons]
  have hamem : a ∈ bm25Top s := by
    rw [htop]
    exact List.mem_cons_self _ _
  have hadom : ∀ j, j ∈ argsortDesc s → s.getD j 0 ≤ s.getD a 0 := by
    intro j hjmem
    rw [hcons] at hjmem
    rcases List.mem_cons.mp hjmem with h1 | h1
    · exact le_of_eq (h1 ▸ rfl)
    · have hsorted := argsortDesc_sorted s
      rw [hcons] at hsorted
      have := List.rel_of_sorted_cons hsorted j h1
      rcases this with h2 | ⟨h2, _⟩
      · exact le_of_lt h2
      · exact le_of_eq h2.symm
  have hatop : s.getD a 0 = pyMax s := by
    have hja : a < s.length := by
      have : a ∈ List.range s.length :=
        (argsortDesc_perm s).subset (hcons ▸ List.mem_cons_self _ _)
      exact List.mem_range.mp this
    apply le_antisymm
    · apply pyMax_ge
      rw [List.getD_eq_getElem?_getD, List.getElem?_eq_getElem hja]
      exact List.getElem_mem hja
    · have h1 : pyMax s ∈ s := pyMax_mem s hs
      rcases List.mem_iff_get.mp h1 with ⟨⟨j, hj⟩, hget⟩
      have hjr : j ∈ argsortDesc s := by
        apply ((argsortDesc_perm s).mem_iff).mpr
        exact List.mem_range.mpr hj
      have h2 := hadom j hjr
      have hgd : s.getD j 0 = pyMax s := by
        rw [List.getD_eq_getElem?_getD, List.getElem?_eq_getElem hj]
        simpa using hget
      rw [← hgd]
      exact h2
  apply pyMax_eq_of
  · rw [← hatop]
    exact List.mem_map_of_mem _ hamem
  · intro y hy
    rcases List.mem_map.mp hy with ⟨j, hj, hjy⟩
    rw [← hjy, ← hatop]
    exact hadom j (List.take_subset _ _ hj)

/-- One accumulation step of the fused dict: fused[k] = fused.get(k, 0) + δ. -/
def updAddQ (d : List (Nat × ℚ)) (kv : Nat × ℚ) : List (Nat × ℚ) :=
  alset d kv.1 (algetD d kv.1 0 + kv.2)

theorem alget_foldl_updAdd_not_mem (l : List (Nat × ℚ)) :
    ∀ (d : List (Nat × ℚ)) (k : Nat), k ∉ l.map Prod.fst →
      alget (l.foldl updAddQ d) k = alget d k := by
  induction l with
  | nil => intro d k _; rfl
  | cons kv rest ih =>
    intro d k hk
    rw [List.map_cons, List.mem_cons] at hk
    push_neg at hk
    rw [List.foldl_cons, ih _ k hk.2]
    exact alget_alset_ne d kv.1 k _ (fun hc => hk.1 hc)

theorem algetD_foldl_updAdd (l : List (Nat × ℚ)) :
    ∀ (d : List (Nat × ℚ)) (k : Nat), (l.map Prod.fst).Nodup →
      algetD (l.foldl updAddQ d) k 0 =
        algetD d k 0 + (((l.find? (fun kv => decide (kv.1 = k))).map Prod.snd).getD 0) := by
  induction l with
  | nil =>
    intro d k _
    simp [List.find?]
  | cons kv rest ih =>
    intro d k hnd
    rw [List.map_cons, List.nodup_cons] at hnd
    rw [List.foldl_cons]
    by_cases hkv : kv.1 = k
    · have hrest : k ∉ rest.map Prod.fst := hkv ▸ hnd.1
      have h1 : alget (rest.foldl updAddQ (updAddQ d kv)) k = alget (updAddQ d kv) k :=
        alget_foldl_updAdd_not_mem rest _ k hrest
      have h2 : alget (updAddQ d kv) k = some (algetD d k 0 + kv.2) := by
        unfold updAddQ
        rw [hkv, alget_alset_self]
      have hfind : (kv :: rest).find? (fun kv => decide (kv.1 = k)) = some kv := by
        rw [List.find?_cons_of_pos _ (by simp [hkv])]
      rw [hfind]
      unfold algetD
      rw [h1, h2]
      rfl
    · have h2 : alget (updAddQ d kv) k = alget d k := by
        unfold updAddQ
        exact alget_alset_ne d kv.1 k _ (fun hc => hkv hc.symm)
      have hfind : (kv :: rest).find? (fun kv => decide (kv.1 = k)) =
          rest.find? (fun kv => decide (kv.1 = k)) := by
        rw [List.find?_cons_of_neg _ (by simp [hkv])]
      rw [hfind, ih _ k hnd.2]
      unfold algetD
      rw [h2]

theorem keys_foldl_updAdd_sub (l : List (Nat × ℚ)) :
    ∀ (d : List (Nat × ℚ)) (k : Nat), k ∈ (l.foldl updAddQ d).map Prod.fst →
      k ∈ d.map Prod.fst ∨ k ∈ l.map Prod.fst := by
  induction l with
  | nil => intro d k hk; exact Or.inl hk
  | cons kv rest ih =>
    intro d k hk
    rw [List.foldl_cons] at hk
    rcases ih _ k hk with h1 | h1
    · rcases keys_alset d kv.1 (algetD d kv.1 0 + kv.2) with he | he
      · rw [updAddQ, he] at h1
        exact Or.inl h1
      · rw [updAddQ, he] at h1
        rcases List.mem_append.mp h1 with h2 | h2
        · exact Or.inl h2
        · rw [List.mem_singleton.mp h2]
          exact Or.inr (List.mem_cons.mpr (Or.inl rfl))
    · exact Or.inr (List.mem_cons_of_mem _ h1)

theorem keys_nodup_foldl_updAdd (l : List (Nat × ℚ)) :
    ∀ d : List (Nat × ℚ), (d.map Prod.fst).Nodup →
      ((l.foldl updAddQ d).map Prod.fst).Nodup := by
  induction l with
  | nil => intro d h; exact h
  | cons kv rest ih =>
    intro d h
    rw [List.foldl_cons]
    exact ih _ (keys_nodup_alset d _ _ h)

/-- The (chunk position, bm25 contribution) pairs fed into the fused dict by
the loop over bm25_top (one per in-range bm25_top entry, in rank order). -/
def bmDeltas (valid : List Nat) (scores : List ℚ) (top : List Nat) : List (Nat × ℚ) :=
  top.enum.filterMap (fun rp =>
    if rp.2 < valid.length then
      some (valid.getD rp.2 0,
        0.4 * (if 0 < pyMax scores then scores.getD rp.2 0 / (pyMax scores + 1e-8) else 0) +
          0.1 / ((rp.1 : ℚ) + 1))
    else none)

/-- The (chunk position, vector contribution) pairs fed into the fused dict
by the loop over bert_similarities. -/
def simDeltas (sims : List (Nat × ℚ)) : List (Nat × ℚ) :=
  sims.map (fun p => (p.1, 0.6 * max 0 p.2))

theorem foldl_guarded_updAdd {α : Type} (P : α → Prop) [DecidablePred P]
    (key : α → Nat) (δ : α → ℚ) (l : List α) :
    ∀ d, l.foldl (fun f x =>
        if P x then alset f (key x) (algetD f (key x) 0 + δ x) else f) d
      = (l.filterMap (fun x => if P x then some (key x, δ x) else none)).foldl updAddQ d := by
  induction l with
  | nil => intro d; rfl
  | cons a rest ih =>
    intro d
    rw [List.foldl_cons, List.filterMap_cons]
    by_cases hP : P a
    · rw [if_pos hP, if_pos hP, List.foldl_cons]
      exact ih _
    · rw [if_neg hP, if_neg hP]
      exact ih _

theorem fusedScores_eq_foldl (valid : List Nat) (scores : List ℚ) (top : List Nat)
    (sims : List (Nat × ℚ)) :
    fusedScores valid scores top sims =
      (simDeltas sims).foldl updAddQ ((bmDeltas valid scores top).foldl updAddQ []) := by
  unfold fusedScores bmDeltas simDeltas
  have h1 : top.enum.foldl (fun f rp =>
      if rp.2 < valid.length then
        alset f (valid.getD rp.2 0)
          (algetD f (valid.getD rp.2 0) 0 +
            0.4 * (if 0 < pyMax scores then scores.getD rp.2 0 / (pyMax scores + 1e-8) else 0) +
            0.1 / ((rp.1 : ℚ) + 1))
      else f) []
      = top.enum.foldl (fun f rp =>
      if rp.2 < valid.length then
        alset f (valid.getD rp.2 0)
          (algetD f (valid.getD rp.2 0) 0 +
            (0.4 * (if 0 < pyMax scores then scores.getD rp.2 0 / (pyMax scores + 1e-8) else 0) +
              0.1 / ((rp.1 : ℚ) + 1)))
      else f) [] := by
    apply List.foldl_ext
    intro f rp _
    by_cases hg : rp.2 < valid.length
    · rw [if_pos hg, if_pos hg, add_assoc]
    · rw [if_neg hg, if_neg hg]
  rw [h1, foldl_guarded_updAdd (fun rp : Nat × Nat => rp.2 < valid.length)
    (fun rp => valid.getD rp.2 0)
    (fun rp => 0.4 * (if 0 < pyMax scores then scores.getD rp.2 0 / (pyMax scores + 1e-8) else 0) +
      0.1 / ((rp.1 : ℚ) + 1)) top.enum []]
  rw [List.foldl_map]
  rfl

/-- The normalized lexical score of the spec: the chunk's lexical score
divided by the maximum lexical score in bm25_top plus 1e-8, and 0 when that
maximum is not positive. -/
def specNormLex (scores : List ℚ) (top : List Nat) (bi : Nat) : ℚ :=
  if 0 < pyMax (top.map (fun j => scores.getD j 0)) then
    scores.getD bi 0 / (pyMax (top.map (fun j => scores.getD j 0)) + 1e-8)
  else 0

/-- The bm25 part of the spec's fused formula for chunk ci:
0.4 * normalized_lexical_score + 0.1 / (1 + rank) when ci occurs in bm25_top
(0-based rank of its first occurrence), and 0 otherwise. -/
def specBmTerm (valid : List Nat) (scores : List ℚ) (top : List Nat) (ci : Nat) : ℚ :=
  match top.enum.find? (fun rp =>
      decide (rp.2 < valid.length ∧ valid.getD rp.2 0 = ci)) with
  | some rp => 0.4 * specNormLex scores top rp.2 + 0.1 / ((rp.1 : ℚ) + 1)
  | none => 0

/-- The vector part of the spec's fused formula for chunk ci:
0.6 * max(0, similarity) when a similarity is recorded for ci, 0 otherwise. -/
def specVecTerm (sims : List (Nat × ℚ)) (ci : Nat) : ℚ :=
  match alget sims ci with
  | some s => 0.6 * max 0 s
  | none => 0

theorem bm_find_correspond (valid : List Nat) (δ : Nat × Nat → ℚ) (ci : Nat) :
    ∀ e : List (Nat × Nat),
      (((e.filterMap (fun rp =>
          if rp.2 < valid.length then some (valid.getD rp.2 0, δ rp) else none)).find?
            (fun kv => decide (kv.1 = ci))).map Prod.snd).getD 0
        = match e.find? (fun rp =>
            decide (rp.2 < valid.length ∧ valid.getD rp.2 0 = ci)) with
          | some rp => δ rp
          | none => 0 := by
  intro e
  induction e with
  | nil => rfl
  | cons rp rest ih =>
    rw [List.filterMap_cons]
    by_cases hg : rp.2 < valid.length
    · rw [if_pos hg]
      by_cases hk : valid.getD rp.2 0 = ci
      · rw [List.find?_cons_of_pos _ (by simp only [decide_eq_true_eq]; exact hk),
          List.find?_cons_of_pos _ (by simp only [decide_eq_true_eq]; exact ⟨hg, hk⟩)]
        rfl
      · rw [List.find?_cons_of_neg _ (by simp only [decide_eq_true_eq]; exact hk),
          List.find?_cons_of_neg _
            (by simp only [decide_eq_true_eq]; exact fun hc => hk hc.2)]
        exact ih
    · rw [if_neg hg, List.find?_cons_of_neg _
        (by simp only [decide_eq_true_eq]; exact fun hc => hg hc.1)]
      exact ih

theorem sim_find_correspond (sims : List (Nat × ℚ)) (ci : Nat) :
    (((simDeltas sims).find? (fun kv => decide (kv.1 = ci))).map Prod.snd).getD 0 =
      specVecTerm sims ci := by
  induction sims with
  | nil => rfl
  | cons q rest ih =>
    unfold simDeltas specVecTerm
    rw [List.map_cons]
    by_cases hq : q.1 = ci
    · rw [List.find?_cons_of_pos _ (by simp [hq])]
      show (0.6 : ℚ) * max 0 q.2 = _
      rw [alget, if_pos hq]
    · rw [List.find?_cons_of_neg _ (by simp [hq])]
      show _ = match alget (q :: rest) ci with
        | some s => (0.6 : ℚ) * max 0 s
        | none => 0
      rw [alget, if_neg hq]
      exact ih

theorem bmDeltas_keys (valid : List Nat) (δ : Nat × Nat → ℚ) :
    ∀ (top : List Nat) (n : Nat),
      ((List.enumFrom n top).filterMap (fun rp =>
        if rp.2 < valid.length then some (valid.getD rp.2 0, δ rp) else none)).map Prod.fst
      = top.filterMap (fun bi =>
          if bi < valid.length then some (valid.getD bi 0) else none) := by
  intro top
  induction top with
  | nil => intro n; rfl
  | cons bi rest ih =>
    intro n
    rw [List.enumFrom_cons, List.filterMap_cons, List.filterMap_cons]
    by_cases hg : bi < valid.length
    · rw [if_pos hg, if_pos hg, List.map_cons, ih]
    · rw [if_neg hg, if_neg hg, ih]

theorem nodup_filterMap_getD (valid : List Nat) (hval : valid.Nodup) :
    ∀ top : List Nat, top.Nodup →
      (top.filterMap (fun bi =>
        if bi < valid.length then some (valid.getD bi 0) else none)).Nodup := by
  intro top
  induction top with
  | nil => intro _; exact List.nodup_nil
  | cons bi rest ih =>
    intro hnd
    rw [List.nodup_cons] at hnd
    rw [List.filterMap_cons]
    by_cases hg : bi < valid.length
    · rw [if_pos hg]
      rw [List.nodup_cons]
      refine ⟨?_, ih hnd.2⟩
      intro hmem
      rcases List.mem_filterMap.mp hmem with ⟨bj, hbj, hout⟩
      by_cases hgj : bj < valid.length
      · rw [if_pos hgj] at hout
        have heq : valid.getD bj 0 = valid.getD bi 0 := Option.some.inj hout
        have : bj = bi := by
          rw [List.getD_eq_getElem?_getD, List.getElem?_eq_getElem hgj,
            List.getD_eq_getElem?_getD, List.getElem?_eq_getElem hg] at heq
          simp only [Option.getD_some] at heq
          exact (hval.getElem_inj_iff).mp heq
        exact hnd.1 (this ▸ hbj)
      · rw [if_neg hgj] at hout
        cases hout
    · rw [if_neg hg]
      exact ih hnd.2

/-- The fused dict formula over arbitrary scores and similarity dicts. -/
theorem fusedScores_formula (valid : List Nat) (scores : List ℚ)
    (sims : List (Nat × ℚ)) (hval : valid.Nodup)
    (hsims : (sims.map Prod.fst).Nodup) (hs : scores ≠ []) :
    ∀ p ∈ fusedScores valid scores (bm25Top scores) sims,
      p.2 = specBmTerm valid scores (bm25Top scores) p.1 +
        specVecTerm sims p.1 := by
  intro p hp
  have hfeq := fusedScores_eq_foldl valid scores (bm25Top scores) sims
  have hbmkeys : ((bmDeltas valid scores (bm25Top scores)).map Prod.fst).Nodup := by
    unfold bmDeltas
    rw [List.enum, bmDeltas_keys]
    exact nodup_filterMap_getD valid hval _ (bm25Top_nodup scores)
  have hsimkeys : ((simDeltas sims).map Prod.fst).Nodup := by
    unfold simDeltas
    rw [List.map_map]
    exact hsims
  have hfkeys : ((fusedScores valid scores (bm25Top scores) sims).map Prod.fst).Nodup := by
    rw [hfeq]
    exact keys_nodup_foldl_updAdd _ _
      (keys_nodup_foldl_updAdd _ _ List.nodup_nil)
  have halg : alget (fusedScores valid scores (bm25Top scores) sims) p.1 = some p.2 :=
    alget_eq_some_of_mem_nodup _ p hfkeys hp
  have hvaleq : algetD (fusedScores valid scores (bm25Top scores) sims) p.1 0 = p.2 := by
    unfold algetD
    rw [halg]
    rfl
  rw [hfeq, algetD_foldl_updAdd _ _ _ hsimkeys,
    algetD_foldl_updAdd _ _ _ hbmkeys] at hvaleq
  have hempty : algetD ([] : List (Nat × ℚ)) p.1 0 = 0 := rfl
  rw [hempty, zero_add] at hvaleq
  have hbm : ((((bmDeltas valid scores (bm25Top scores)).find?
      (fun kv => decide (kv.1 = p.1))).map Prod.snd).getD 0) =
      specBmTerm valid scores (bm25Top scores) p.1 := by
    unfold bmDeltas
    rw [bm_find_correspond]
    unfold specBmTerm
    have hnorm : ∀ bi, (if 0 < pyMax scores then
        scores.getD bi 0 / (pyMax scores + 1e-8) else 0) =
        specNormLex scores (bm25Top scores) bi := by
      intro bi
      unfold specNormLex
      rw [pyMax_bm25Top scores hs]
    rcases hfind : (bm25Top scores).enum.find? (fun rp =>
        decide (rp.2 < valid.length ∧ valid.getD rp.2 0 = p.1)) with _ | rp
    · rw [hfind]
    · rw [hfind]
      show (0.4 * (if 0 < pyMax scores then
          scores.getD rp.2 0 / (pyMax scores + 1e-8) else 0)) + 0.1 / ((rp.1 : ℚ) + 1) =
        0.4 * specNormLex scores (bm25Top scores) rp.2 + 0.1 / ((rp.1 : ℚ) + 1)
      rw [hnorm rp.2]
  rw [hbm, sim_find_correspond] at hvaleq
  exact hvaleq.symm

theorem keys_nodup_foldl_step {α : Type}
    (step : List (Nat × ℚ) → α → List (Nat × ℚ))
    (hstep : ∀ d x, step d x = d ∨ ∃ k v, step d x = alset d k v) :
    ∀ (l : List α) (d : List (Nat × ℚ)), (d.map Prod.fst).Nodup →
      (((l.foldl step d)).map Prod.fst).Nodup := by
  intro l
  induction l with
  | nil => intro d h; exact h
  | cons a rest ih =>
    intro d h
    rw [List.foldl_cons]
    apply ih
    rcases hstep d a with h1 | ⟨k, v, h1⟩
    · rw [h1]; exact h
    · rw [h1]; exact keys_nodup_alset d k v h

theorem bertSims0_keys_nodup (st : Index) (f : FaissIP) (q_emb : List ℚ)
    (top_k : Nat) : ((bertSims0 st f q_emb top_k).map Prod.fst).Nodup := by
  unfold bertSims0
  exact keys_nodup_foldl_step _ (fun d (p : Nat × ℚ) => Or.inr ⟨p.1, p.2, rfl⟩) _ []
    List.nodup_nil

theorem searchSims_keys_nodup (st : Index) (corpus : List (List Str)) (f : FaissIP)
    (query : Str) (top_k : Nat) :
    ((searchSims st corpus f query top_k).map Prod.fst).Nodup := by
  unfold searchSims
  by_cases hc : candidateChunks st
      (bm25Top (st.bmScores corpus (qTokens query)))
      (bertCandidates st f (st.embedder query) top_k) ≠ []
  · rw [if_pos hc]
    unfold refineSims
    rcases st.bert_embeddings with _ | be
    · exact bertSims0_keys_nodup st f _ top_k
    · apply keys_nodup_foldl_step
      · intro d p
        rcases halg : alget d p.1 with _ | old
        · exact Or.inr ⟨p.1, dot p.2 (st.embedder query), rfl⟩
        · by_cases hlt : old < dot p.2 (st.embedder query)
          · refine Or.inr ⟨p.1, dot p.2 (st.embedder query), ?_⟩
            show (if old < dot p.2 (st.embedder query) then
                alset d p.1 (dot p.2 (st.embedder query)) else d) =
              alset d p.1 (dot p.2 (st.embedder query))
            rw [if_pos hlt]
          · refine Or.inl ?_
            show (if old < dot p.2 (st.embedder query) then
                alset d p.1 (dot p.2 (st.embedder query)) else d) = d
            rw [if_neg hlt]
      · exact bertSims0_keys_nodup st f _ top_k
  · rw [if_neg hc]
    exact bertSims0_keys_nodup st f _ top_k

/-- C1: every entry (c, v) of the fused dict computed by Index.search
satisfies v = 0.4 * normalized_lexical_score(c) + 0.1 /
(1 + rank_in_bm25_top(c)) + 0.6 * max(0, vector_similarity(c)): the bm25
terms are present exactly for the chunks reachable from bm25_top (with their
0-based rank, the lexical score normalized by the maximum lexical score in
bm25_top plus 1e-8, zero when that maximum is not positive), and the vector
term exactly for chunks with a recorded similarity, clamped at 0. -/
theorem claim_C1_fused_formula (st : Index) (corpus : List (List Str))
    (f : FaissIP) (query : Str) (top_k : Nat)
    (hval : st.valid_chunk_indices.Nodup)
    (hs : st.bmScores corpus (qTokens query) ≠ []) :
    ∀ p ∈ searchFused st corpus f query top_k,
      p.2 = specBmTerm st.valid_chunk_indices (st.bmScores corpus (qTokens query))
          (bm25Top (st.bmScores corpus (qTokens query))) p.1 +
        specVecTerm (searchSims st corpus f query top_k) p.1 := by
  unfold searchFused
  exact fusedScores_formula st.valid_chunk_indices
    (st.bmScores corpus (qTokens query)) (searchSims st corpus f query top_k)
    hval (searchSims_keys_nodup st corpus f query top_k) hs

theorem claim_C1_fused_formula_witness :
    (exSt1.valid_chunk_indices.Nodup ∧
        exSt1.bmScores [pySplit (lowerStr exChunkS)] (qTokens (("fox").toList)) ≠ []) ∧
      ∀ p ∈ searchFused exSt1 [pySplit (lowerStr exChunkS)] ⟨[[1]]⟩ (("fox").toList) 5,
        p.2 = specBmTerm exSt1.valid_chunk_indices
            (exSt1.bmScores [pySplit (lowerStr exChunkS)] (qTokens (("fox").toList)))
            (bm25Top (exSt1.bmScores [pySplit (lowerStr exChunkS)]
              (qTokens (("fox").toList)))) p.1 +
          specVecTerm (searchSims exSt1 [pySplit (lowerStr exChunkS)] ⟨[[1]]⟩
            (("fox").toList) 5) p.1 :=
  ⟨⟨by decide, by with_unfolding_all decide⟩,
    claim_C1_fused_formula exSt1 [pySplit (lowerStr exChunkS)] ⟨[[1]]⟩
      (("fox").toList) 5 (by decide) (by with_unfolding_all decide)⟩

/-! ## C3: which chunks can receive a fused score -/

/-- C3 is false as stated: in a 51-chunk index where the lexical scores are
strictly decreasing in chunk position and only the first five chunks have
positive vector similarity, a top_k = 1 query gives chunk 50 a fused score
(it is the 51st entry of bm25_top, and the fusion loop walks all of
bm25_top), yet chunk 50 is not in the candidate union of the top 50 of
bm25_top and the top 50 vector candidates (the set the code builds in lines
142-147). -/
theorem claim_C3_counterexample :
    50 ∈ (searchFused exSt51 exCorpus51 ⟨exMat51⟩ ['q'] 1).map Prod.fst ∧
      50 ∉ candidateChunks exSt51
        (bm25Top (exSt51.bmScores exCorpus51 (qTokens ['q'])))
        (bertCandidates exSt51 ⟨exMat51⟩ (exSt51.embedder ['q']) 1) := by
  refine ⟨by with_unfolding_all decide, by with_unfolding_all decide⟩

theorem mem_setAdd (s : List Nat) (a x : Nat) (hx : x ∈ setAdd s a) :
    x ∈ s ∨ x = a := by
  unfold setAdd at hx
  by_cases h : a ∈ s
  · rw [if_pos h] at hx
    exact Or.inl hx
  · rw [if_neg h] at hx
    rcases List.mem_append.mp hx with h1 | h1
    · exact Or.inl h1
    · exact Or.inr (List.mem_singleton.mp h1)

theorem mem_foldl_setAdd (l : List Nat) :
    ∀ (s : List Nat) (x : Nat), x ∈ l.foldl setAdd s → x ∈ s ∨ x ∈ l := by
  induction l with
  | nil => intro s x hx; exact Or.inl hx
  | cons a rest ih =>
    intro s x hx
    rw [List.foldl_cons] at hx
    rcases ih _ x hx with h1 | h1
    · rcases mem_setAdd s a x h1 with h2 | h2
      · exact Or.inl h2
      · exact Or.inr (List.mem_cons.mpr (Or.inl h2))
    · exact Or.inr (List.mem_cons_of_mem _ h1)

theorem mem_foldl_guard_setAdd (valid : List Nat) (l : List Nat) :
    ∀ (s : List Nat) (x : Nat),
      x ∈ l.foldl (fun s bi =>
        if bi < valid.length then setAdd s (valid.getD bi 0) else s) s →
      x ∈ s ∨ x ∈ l.filterMap (fun bi =>
        if bi < valid.length then some (valid.getD bi 0) else none) := by
  induction l with
  | nil => intro s x hx; exact Or.inl hx
  | cons bi rest ih =>
    intro s x hx
    rw [List.foldl_cons] at hx
    rw [List.filterMap_cons]
    by_cases hg : bi < valid.length
    · rw [if_pos hg] at hx
      rw [if_pos hg]
      rcases ih _ x hx with h1 | h1
      · rcases mem_setAdd s _ x h1 with h2 | h2
        · exact Or.inl h2
        · exact Or.inr (List.mem_cons.mpr (Or.inl h2))
      · exact Or.inr (List.mem_cons_of_mem _ h1)
    · rw [if_neg hg] at hx
      rw [if_neg hg]
      exact ih _ x hx

/-- The global chunk positions reachable from a list of lexical-index rows
through valid_chunk_indices. -/
def validPositions (valid : List Nat) (rows : List Nat) : List Nat :=
  rows.filterMap (fun bi => if bi < valid.length then some (valid.getD bi 0) else none)

theorem candidateChunks_sub (st : Index) (top : List Nat) (bcands : List Nat)
    (x : Nat) (hx : x ∈ candidateChunks st top bcands) :
    x ∈ validPositions st.valid_chunk_indices top ∨ x ∈ bcands := by
  unfold candidateChunks at hx
  rcases mem_foldl_setAdd _ _ x hx with h1 | h1
  · rcases mem_foldl_guard_setAdd st.valid_chunk_indices _ _ x h1 with h2 | h2
    · cases h2
    · left
      have hsub : List.Sublist ((top.take 50).filterMap (fun bi =>
          if bi < st.valid_chunk_indices.length then
            some (st.valid_chunk_indices.getD bi 0) else none))
          (top.filterMap (fun bi =>
            if bi < st.valid_chunk_indices.length then
              some (st.valid_chunk_indices.getD bi 0) else none)) :=
        (List.take_sublist 50 top).filterMap _
      exact hsub.subset h2
  · exact Or.inr (List.take_subset _ _ h1)

theorem keys_foldl_step_sub {α : Type} (step : List (Nat × ℚ) → α → List (Nat × ℚ))
    (key : α → Nat)
    (hstep : ∀ d x, step d x = d ∨ ∃ v, step d x = alset d (key x) v) :
    ∀ (l : List α) (d : List (Nat × ℚ)) (k : Nat),
      k ∈ (l.foldl step d).map Prod.fst →
      k ∈ d.map Prod.fst ∨ k ∈ l.map key := by
  intro l
  induction l with
  | nil => intro d k hk; exact Or.inl hk
  | cons a rest ih =>
    intro d k hk
    rw [List.foldl_cons] at hk
    rcases ih _ k hk with h1 | h1
    · rcases hstep d a with h2 | ⟨v, h2⟩
      · rw [h2] at h1
        exact Or.inl h1
      · rw [h2] at h1
        rcases keys_alset d (key a) v with he | he
        · rw [he] at h1
          exact Or.inl h1
        · rw [he] at h1
          rcases List.mem_append.mp h1 with h3 | h3
          · exact Or.inl h3
          · rw [List.mem_singleton.mp h3]
            exact Or.inr (List.mem_cons.mpr (Or.inl rfl))
    · exact Or.inr (List.mem_cons_of_mem _ h1)

theorem bertSims0_keys_sub (st : Index) (f : FaissIP) (q_emb : List ℚ)
    (top_k : Nat) (k : Nat)
    (hk : k ∈ (bertSims0 st f q_emb top_k).map Prod.fst) :
    k ∈ bertCandidates st f q_emb top_k := by
  unfold bertSims0 at hk
  rcases keys_foldl_step_sub _ Prod.fst
      (fun d (p : Nat × ℚ) => Or.inr ⟨p.2, rfl⟩) _ [] k hk with h1 | h1
  · cases h1
  · exact h1

theorem searchSims_keys_sub (st : Index) (corpus : List (List Str)) (f : FaissIP)
    (query : Str) (top_k : Nat) (k : Nat)
    (hk : k ∈ (searchSims st corpus f query top_k).map Prod.fst) :
    k ∈ bertCandidates st f (st.embedder query) top_k ∨
      k ∈ candidateChunks st (bm25Top (st.bmScores corpus (qTokens query)))
        (bertCandidates st f (st.embedder query) top_k) := by
  unfold searchSims at hk
  by_cases hc : candidateChunks st
      (bm25Top (st.bmScores corpus (qTokens query)))
      (bertCandidates st f (st.embedder query) top_k) ≠ []
  · rw [if_pos hc] at hk
    unfold refineSims at hk
    rcases hbe : st.bert_embeddings with _ | be
    · rw [hbe] at hk
      exact Or.inl (bertSims0_keys_sub st f _ top_k k hk)
    · rw [hbe] at hk
      have hstep : ∀ (d : List (Nat × ℚ)) (p : Nat × List ℚ),
          (fun d (p : Nat × List ℚ) =>
            let sim := dot p.2 (st.embedder query)
            match alget d p.1 with
            | none => alset d p.1 sim
            | some old => if old < sim then alset d p.1 sim else d) d p = d ∨
          ∃ v, (fun d (p : Nat × List ℚ) =>
            let sim := dot p.2 (st.embedder query)
            match alget d p.1 with
            | none => alset d p.1 sim
            | some old => if old < sim then alset d p.1 sim else d) d p =
            alset d p.1 v := by
        intro d p
        show (match alget d p.1 with
            | none => alset d p.1 (dot p.2 (st.embedder query))
            | some old => if old < dot p.2 (st.embedder query) then
                alset d p.1 (dot p.2 (st.embedder query)) else d) = d ∨
          ∃ v, (match alget d p.1 with
            | none => alset d p.1 (dot p.2 (st.embedder query))
            | some old => if old < dot p.2 (st.embedder query) then
                alset d p.1 (dot p.2 (st.embedder query)) else d) = alset d p.1 v
        rcases halg : alget d p.1 with _ | old
        · exact Or.inr ⟨dot p.2 (st.embedder query), rfl⟩
        · by_cases hlt : old < dot p.2 (st.embedder query)
          · refine Or.inr ⟨dot p.2 (st.embedder query), ?_⟩
            show (if old < dot p.2 (st.embedder query) then
                alset d p.1 (dot p.2 (st.embedder query)) else d) =
              alset d p.1 (dot p.2 (st.embedder query))
            rw [if_pos hlt]
          · refine Or.inl ?_
            show (if old < dot p.2 (st.embedder query) then
                alset d p.1 (dot p.2 (st.embedder query)) else d) = d
            rw [if_neg hlt]
      rcases keys_foldl_step_sub _ Prod.fst hstep _ _ k hk with h1 | h1
      · exact Or.inl (bertSims0_keys_sub st f _ top_k k h1)
      · rcases List.mem_map.mp h1 with ⟨p, hp, hpk⟩
        rcases List.mem_filterMap.mp hp with ⟨ci, hci, hout⟩
        rcases hli : lastIdxOf st.valid_chunk_indices ci with _ | ei
        · rw [hli] at hout
          have hout2 : (none : Option (Nat × List ℚ)) = some p := hout
          cases hout2
        · rw [hli] at hout
          have hout2 : (if ei < be.length then
              some (ci, be.getD ei []) else none) = some p := hout
          by_cases hei : ei < be.length
          · rw [if_pos hei] at hout2
            have hp1 : p.1 = ci := by
              cases hout2
              rfl
            right
            rw [← hpk, hp1]
            exact hci
          · rw [if_neg hei] at hout2
            cases hout2
  · rw [if_neg hc] at hk
    exact Or.inl (bertSims0_keys_sub st f _ top_k k hk)

/-- C3 (amended): every chunk that receives a fused score belongs to the
union of the global chunk positions of ALL entries of bm25_top (up to 100,
not just the top 50) and ALL search_k vector candidates (not just the top
50); the candidate union of lines 142-147 is only used to refine
similarities, not to restrict fusion. -/
theorem claim_C3_amended_fused_candidates (st : Index) (corpus : List (List Str))
    (f : FaissIP) (query : Str) (top_k : Nat) :
    ∀ ci ∈ (searchFused st corpus f query top_k).map Prod.fst,
      ci ∈ validPositions st.valid_chunk_indices
          (bm25Top (st.bmScores corpus (qTokens query))) ∨
        ci ∈ bertCandidates st f (st.embedder query) top_k := by
  intro ci hci
  unfold searchFused at hci
  rw [fusedScores_eq_foldl] at hci
  rcases keys_foldl_updAdd_sub _ _ ci hci with h1 | h1
  · rcases keys_foldl_updAdd_sub _ _ ci h1 with h2 | h2
    · cases h2
    · left
      unfold bmDeltas at h2
      rw [List.enum, bmDeltas_keys] at h2
      exact h2
  · have h2 : ci ∈ (searchSims st corpus f query top_k).map Prod.fst := by
      unfold simDeltas at h1
      rw [List.map_map] at h1
      exact h1
    rcases searchSims_keys_sub st corpus f query top_k ci h2 with h3 | h3
    · exact Or.inr h3
    · rcases candidateChunks_sub st _ _ ci h3 with h4 | h4
      · exact Or.inl h4
      · exact Or.inr h4

theorem claim_C3_amended_fused_candidates_witness :
    0 ∈ (searchFused exSt1 [pySplit (lowerStr exChunkS)] ⟨[[1]]⟩ (("fox").toList) 5).map
        Prod.fst ∧
      (0 ∈ validPositions exSt1.valid_chunk_indices
          (bm25Top (exSt1.bmScores [pySplit (lowerStr exChunkS)]
            (qTokens (("fox").toList)))) ∨
        0 ∈ bertCandidates exSt1 ⟨[[1]]⟩ (exSt1.embedder (("fox").toList)) 5) :=
  ⟨by with_unfolding_all decide,
    claim_C3_amended_fused_candidates exSt1 [pySplit (lowerStr exChunkS)] ⟨[[1]]⟩
      (("fox").toList) 5 0 (by with_unfolding_all decide)⟩

/-! ## C10: every stored chunk is a valid chunk -/

theorem pySplitAux_words (s : List Char) :
    ∀ acc : List Char, (∀ c ∈ acc, isSpace c = false) →
      ∀ w ∈ pySplitAux s acc, w ≠ [] ∧ ∀ c ∈ w, isSpace c = false := by
  induction s with
  | nil =>
    intro acc hacc w hw
    rw [pySplitAux] at hw
    by_cases ha : acc = []
    · rw [if_pos ha] at hw
      cases hw
    · rw [if_neg ha] at hw
      rw [List.mem_singleton.mp hw]
      constructor
      · simpa using ha
      · intro c hc
        exact hacc c (List.mem_reverse.mp hc)
  | cons c rest ih =>
    intro acc hacc w hw
    rw [pySplitAux] at hw
    by_cases hsp : isSpace c
    · rw [if_pos hsp] at hw
      by_cases ha : acc = []
      · rw [if_pos ha] at hw
        exact ih [] (by intro x hx; cases hx) w hw
      · rw [if_neg ha] at hw
        rcases List.mem_cons.mp hw with h1 | h1
        · rw [h1]
          constructor
          · simpa using ha
          · intro x hx
            exact hacc x (List.mem_reverse.mp hx)
        · exact ih [] (by intro x hx; cases hx) w h1
    · rw [if_neg hsp] at hw
      apply ih (c :: acc) _ w hw
      intro x hx
      rcases List.mem_cons.mp hx with h1 | h1
      · rw [h1]
        simpa using hsp
      · exact hacc x h1

theorem pySplit_words (s : Str) :
    ∀ w ∈ pySplit s, w ≠ [] ∧ ∀ c ∈ w, isSpace c = false :=
  pySplitAux_words s [] (by intro c hc; cases hc)

theorem lowerChar_isSpace (c : Char) : isSpace (lowerChar c) = isSpace c := by
  unfold lowerChar
  by_cases h : 65 ≤ c.toNat ∧ c.toNat ≤ 90
  · rw [if_pos h]
    have hval : (Char.ofNat (c.toNat + 32)).toNat = c.toNat + 32 := by
      have hlt : c.toNat + 32 < 0xD800 := by omega
      unfold Char.ofNat
      rw [dif_pos (Or.inl hlt)]
      rfl
    unfold isSpace
    rw [hval]
    have h1 : ¬(c.toNat + 32 = 32 ∨ c.toNat + 32 = 9 ∨ c.toNat + 32 = 10 ∨
        c.toNat + 32 = 11 ∨ c.toNat + 32 = 12 ∨ c.toNat + 32 = 13) := by omega
    have h2 : ¬(c.toNat = 32 ∨ c.toNat = 9 ∨ c.toNat = 10 ∨
        c.toNat = 11 ∨ c.toNat = 12 ∨ c.toNat = 13) := by omega
    rw [decide_eq_false h1, decide_eq_false h2]
  · rw [if_neg h]

theorem pySplit_cons_ne (c : Char) (s : List Char) (hc : isSpace c = false) :
    pySplit (c :: s) ≠ [] := by
  unfold pySplit pySplitAux
  rw [if_neg (by simp [hc])]
  exact pySplitAux_ne_nil s [c] (by simp)

theorem joinSpace_cons (w : Str) (t : List Str) :
    ∃ tail, joinSpace (w :: t) = w ++ tail := by
  cases t with
  | nil =>
    refine ⟨[], ?_⟩
    simp [joinSpace, List.intercalate]
  | cons y t' =>
    refine ⟨[' '] ++ List.intercalate [' '] (y :: t'), ?_⟩
    simp [joinSpace, List.intercalate, List.intersperse]

theorem chunkLoop_head (size step : Nat) (hsize : 1 ≤ size) :
    ∀ (fuel : Nat) (ws : List Str) (w : List Str),
      w ∈ chunkLoop fuel ws size step → ∃ a t, w = a :: t ∧ a ∈ ws := by
  intro fuel
  induction fuel with
  | zero =>
    intro ws w hw
    cases hw
  | succ n ih =>
    intro ws w hw
    rw [chunkLoop] at hw
    by_cases hempty : ws = []
    · rw [if_pos hempty] at hw
      cases hw
    · rw [if_neg hempty] at hw
      rcases List.mem_cons.mp hw with h1 | h1
      · cases ws with
        | nil => exact absurd rfl hempty
        | cons b ws' =>
          obtain ⟨m, hm⟩ : ∃ m, size = m + 1 := ⟨size - 1, by omega⟩
          rw [hm, List.take_succ_cons] at h1
          exact ⟨b, ws'.take m, h1, List.mem_cons_self _ _⟩
      · rcases ih _ w h1 with ⟨a, t, ht, ha⟩
        exact ⟨a, t, ht, List.drop_subset _ _ ha⟩

/-- Every chunk emitted by chunk_text contains at least one word: it
tokenizes (after lower-casing) to a nonempty word list. -/
theorem chunk_text_wordy (text : Str) :
    ∀ c ∈ chunk_text text 200 50, pySplit (lowerStr c) ≠ [] := by
  intro c hc
  unfold chunk_text at hc
  rcases List.mem_map.mp hc with ⟨w, hw, hjoin⟩
  rcases chunkLoop_head 200 150 (by omega) _ _ w hw with ⟨a, t, hat, hamem⟩
  rcases pySplit_words text a hamem with ⟨hane, hachars⟩
  cases a with
  | nil => exact absurd rfl hane
  | cons ch cs =>
    rcases joinSpace_cons (ch :: cs) t with ⟨tail, htail⟩
    rw [hat, htail] at hjoin
    have hform : c = ch :: (cs ++ tail) := by
      rw [← hjoin]
      rfl
    rw [hform]
    show pySplit (lowerChar ch :: lowerStr (cs ++ tail)) ≠ []
    apply pySplit_cons_ne
    rw [lowerChar_isSpace]
    exact hachars ch (List.mem_cons_self _ _)

theorem lowerStr_split_nil_iff (c : Str) :
    pySplit (lowerStr c) = [] ↔ pySplit c = [] := by
  rw [pySplit_eq_nil_iff, pySplit_eq_nil_iff]
  constructor
  · intro h ch hch
    have := h (lowerChar ch) (List.mem_map_of_mem lowerChar hch)
    rw [lowerChar_isSpace] at this
    exact this
  · intro h ch hch
    rcases List.mem_map.mp hch with ⟨x, hx, hxch⟩
    rw [← hxch, lowerChar_isSpace]
    exact h x hx

theorem filterMap_eq_map_of_valid :
    ∀ l : List (Nat × Str),
      (∀ ic ∈ l, pySplit ic.2 ≠ [] ∧ pySplit (lowerStr ic.2) ≠ []) →
      l.filterMap (fun ic =>
        if pySplit ic.2 ≠ [] then
          let tokens := pySplit (lowerStr ic.2)
          if tokens ≠ [] then some (ic.1, tokens) else none
        else none)
      = l.map (fun ic => (ic.1, pySplit (lowerStr ic.2))) := by
  intro l
  induction l with
  | nil => intro _; rfl
  | cons ic rest ih =>
    intro h
    have hic := h ic (List.mem_cons_self _ _)
    have hstep : (if pySplit ic.2 ≠ [] then
        (let tokens := pySplit (lowerStr ic.2)
         if tokens ≠ [] then some (ic.1, tokens) else none)
        else none) = some (ic.1, pySplit (lowerStr ic.2)) := by
      rw [if_pos hic.1]
      show (if pySplit (lowerStr ic.2) ≠ [] then
          some (ic.1, pySplit (lowerStr ic.2)) else none) = _
      rw [if_pos hic.2]
    rw [List.filterMap_cons, hstep, List.map_cons,
      ih (fun x hx => h x (List.mem_cons_of_mem _ hx))]

theorem rebuildPairs_all_valid (chunks : List Str)
    (hw : ∀ c ∈ chunks, pySplit (lowerStr c) ≠ []) :
    rebuildPairs chunks = chunks.enum.map (fun ic => (ic.1, pySplit (lowerStr ic.2))) := by
  unfold rebuildPairs
  apply filterMap_eq_map_of_valid
  intro ic hic
  have hc2 : ic.2 ∈ chunks := by
    have hg := List.mem_enum_iff_getElem?.mp (show (ic.1, ic.2) ∈ chunks.enum from hic)
    exact List.getElem?_mem hg
  have h2 := hw ic.2 hc2
  exact ⟨fun hcon => h2 ((lowerStr_split_nil_iff ic.2).mpr hcon), h2⟩

theorem rebuild_chunks_eq (st : Index) : (st.rebuild).chunks = st.chunks := by
  unfold Index.rebuild
  simp only []
  split_ifs <;> rfl

theorem rebuild_valid_range (st : Index) (hc : st.chunks ≠ [])
    (hw : ∀ c ∈ st.chunks, pySplit (lowerStr c) ≠ []) :
    (st.rebuild).valid_chunk_indices = List.range st.chunks.length := by
  have hpairs := rebuildPairs_all_valid st.chunks hw
  have hvalid : (rebuildPairs st.chunks).map Prod.fst = List.range st.chunks.length := by
    rw [hpairs, List.map_map]
    exact List.enum_map_fst st.chunks
  have hlen : 0 < st.chunks.length := List.length_pos.mpr hc
  have hv : (rebuildPairs st.chunks).map Prod.fst ≠ [] := by
    rw [hvalid]
    intro hcon
    rw [List.range_eq_nil] at hcon
    omega
  have ht : (rebuildPairs st.chunks).map Prod.snd ≠ [] := by
    intro hcon
    apply hv
    have h1 := congrArg List.length hcon
    simp only [List.length_map] at h1
    simp [List.eq_nil_of_length_eq_zero h1]
  unfold Index.rebuild
  rw [if_neg hc]
  simp only []
  split_ifs with hsz
  · exact hvalid
  · exact hvalid

theorem batch_fold_inv (ds : List (Str × Str × Str)) :
    ∀ (n : Nat) (s : Index),
      (∀ c ∈ s.chunks, pySplit (lowerStr c) ≠ []) →
      (0 < n → s.chunks ≠ []) →
      (∀ c ∈ (ds.foldl (fun acc d =>
          let r1 := acc.2.add_document d.1 d.2.1 d.2.2
          (if r1.1 then acc.1 + 1 else acc.1, r1.2)) (n, s)).2.chunks,
        pySplit (lowerStr c) ≠ []) ∧
      (0 < (ds.foldl (fun acc d =>
          let r1 := acc.2.add_document d.1 d.2.1 d.2.2
          (if r1.1 then acc.1 + 1 else acc.1, r1.2)) (n, s)).1 →
        (ds.foldl (fun acc d =>
          let r1 := acc.2.add_document d.1 d.2.1 d.2.2
          (if r1.1 then acc.1 + 1 else acc.1, r1.2)) (n, s)).2.chunks ≠ []) := by
  induction ds with
  | nil =>
    intro n s hw hn
    exact ⟨hw, hn⟩
  | cons d rest ih =>
    intro n s hw hn
    rw [List.foldl_cons]
    by_cases h1 : pySplit d.2.2 = []
    · have hadd : s.add_document d.1 d.2.1 d.2.2 = (false, s) := by
        unfold Index.add_document
        rw [if_pos h1]
      rw [hadd]
      exact ih n s hw hn
    · by_cases h2 : chunk_text d.2.2 200 50 = []
      · have hadd : s.add_document d.1 d.2.1 d.2.2 = (false, s) := by
          unfold Index.add_document
          rw [if_neg h1, if_pos h2]
        rw [hadd]
        exact ih n s hw hn
      · have hadd : s.add_document d.1 d.2.1 d.2.2 =
            (true,
              { s with
                chunks := s.chunks ++ chunk_text d.2.2 200 50
                docs := s.docs ++ [⟨d.1, d.2.1, d.2.2, chunk_text d.2.2 200 50⟩]
                doc_map := s.doc_map ++ [(s.docs.length, s.chunks.length,
                  s.chunks.length + (chunk_text d.2.2 200 50).length)] }) := by
          unfold Index.add_document
          rw [if_neg h1, if_neg h2]
        rw [hadd]
        apply ih
        · intro c hcmem
          rcases List.mem_append.mp hcmem with hm | hm
          · exact hw c hm
          · exact chunk_text_wordy d.2.2 c hm
        · intro _
          intro hcon
          exact h2 (List.append_eq_nil.mp hcon).2

/-- C10: every chunk produced by chunk_text tokenizes to a nonempty word
list after lower-casing, and consequently, after a rebuild triggered by a
successful ingestion batch on a store whose chunks all came from chunk_text,
valid_chunk_indices is the full position range 0..len(chunks)-1: the
valid-chunk filter never excludes a stored chunk. -/
theorem claim_C10_valid_chunks (st : Index) (ds : List (Str × Str × Str))
    (hw : ∀ c ∈ st.chunks, pySplit (lowerStr c) ≠ []) :
    (∀ (text : Str), ∀ c ∈ chunk_text text 200 50, pySplit (lowerStr c) ≠ []) ∧
      (0 < (st.add_documents_batch ds).1 →
        ((st.add_documents_batch ds).2).valid_chunk_indices =
          List.range ((st.add_documents_batch ds).2).chunks.length) := by
  refine ⟨fun text c hc => chunk_text_wordy text c hc, ?_⟩
  intro hpos
  have hinv := batch_fold_inv ds 0 st hw (by omega)
  unfold Index.add_documents_batch at hpos ⊢
  by_cases hr : 0 < (ds.foldl (fun acc d =>
      let r1 := acc.2.add_document d.1 d.2.1 d.2.2
      (if r1.1 then acc.1 + 1 else acc.1, r1.2)) (0, st)).1
  · rw [if_pos hr]
    show ((ds.foldl _ (0, st)).2.rebuild).valid_chunk_indices =
      List.range ((ds.foldl _ (0, st)).2.rebuild).chunks.length
    rw [rebuild_chunks_eq]
    exact rebuild_valid_range _ (hinv.2 hr) hinv.1
  · rw [if_neg hr] at hpos
    exact absurd hpos hr

def exDs : List (Str × Str × Str) := [(['2'], ['d'], ("hello world").toList)]

theorem claim_C10_valid_chunks_witness :
    ((∀ c ∈ exSt1.chunks, pySplit (lowerStr c) ≠ []) ∧
        0 < (exSt1.add_documents_batch exDs).1) ∧
      ((exSt1.add_documents_batch exDs).2).valid_chunk_indices =
        List.range ((exSt1.add_documents_batch exDs).2).chunks.length :=
  ⟨⟨by decide, by with_unfolding_all decide⟩,
    (claim_C10_valid_chunks exSt1 exDs (by decide)).2 (by with_unfolding_all decide)⟩

end PdfSearch
